import Mathlib

/-!
A shallow embedding of `src/common/utils/format.ts` (KLineChart display
formatting utilities) together with proofs about its operations.

Modelling conventions:
* JavaScript numbers are modelled exactly as fractions `JNum` (an integer
  numerator together with a natural denominator); `Option JNum` adds `NaN`
  as `none`.  Finite IEEE doubles all have such exact decimal-capable
  values; infinities are outside the model.
* JavaScript strings are Lean `String`s; most functions work on the
  underlying `List Char`.
* All recursion is structural or fuel-based so that every definition
  evaluates inside the kernel.
-/

/-! ### Character helpers -/

def isDigitCh (c : Char) : Bool := '0' ≤ c && c ≤ '9'

def isNzDigitCh (c : Char) : Bool := '1' ≤ c && c ≤ '9'

/-- The ECMA-262 `StrWhiteSpaceChar` set trimmed by `ToNumber`:
WhiteSpace (TAB, VT, FF, SP, NBSP, ZWNBSP and the Unicode space
separators) together with the line terminators LF, CR, LS, PS. -/
def wsChars : List Char :=
  [' ', '\t', '\n', '\r', Char.ofNat 11, Char.ofNat 12, Char.ofNat 160,
   Char.ofNat 5760, Char.ofNat 8192, Char.ofNat 8193, Char.ofNat 8194,
   Char.ofNat 8195, Char.ofNat 8196, Char.ofNat 8197, Char.ofNat 8198,
   Char.ofNat 8199, Char.ofNat 8200, Char.ofNat 8201, Char.ofNat 8202,
   Char.ofNat 8232, Char.ofNat 8233, Char.ofNat 8239, Char.ofNat 8287,
   Char.ofNat 12288, Char.ofNat 65279]

def isWsCh (c : Char) : Bool := decide (c ∈ wsChars)

def digitVal (c : Char) : ℕ := c.toNat - 48

def digitCh (n : ℕ) : Char := Char.ofNat (48 + n)

/-! ### Decimal digit strings for naturals -/

/-- Little-endian decimal digits of `n`, with explicit fuel (`fuel ≥ 1 + n`
is always enough; recursion divides by 10 each step). -/
def decDigitsAux : ℕ → ℕ → List Char
  | 0, _ => []
  | _ + 1, 0 => []
  | fuel + 1, n + 1 => digitCh ((n + 1) % 10) :: decDigitsAux fuel ((n + 1) / 10)

/-- Decimal representation of a natural number, most significant digit first. -/
def natToDec (n : ℕ) : List Char := if n = 0 then ['0'] else (decDigitsAux (n + 1) n).reverse

/-- Value of a big-endian decimal digit string. -/
def ofDigitsCh (l : List Char) : ℕ := l.foldl (fun a c => a * 10 + digitVal c) 0

theorem decDigitsAux_eq_digits : ∀ fuel n, n ≤ fuel →
    decDigitsAux fuel n = (Nat.digits 10 n).map digitCh := by
  intro fuel
  induction fuel with
  | zero => intro n hn; interval_cases n; simp [decDigitsAux]
  | succ f ih =>
    intro n hn
    match n with
    | 0 => simp [decDigitsAux]
    | m + 1 =>
      rw [decDigitsAux, Nat.digits_def' (b := 10) (by norm_num) (Nat.succ_pos m)]
      have hdiv : (m + 1) / 10 ≤ f := by
        have h1 : (m + 1) / 10 < m + 1 := Nat.div_lt_self (Nat.succ_pos m) (by norm_num)
        omega
      rw [ih _ hdiv]
      simp

theorem natToDec_eq (n : ℕ) (hn : n ≠ 0) :
    natToDec n = ((Nat.digits 10 n).map digitCh).reverse := by
  rw [natToDec, if_neg hn, decDigitsAux_eq_digits _ _ (Nat.le_succ n)]

theorem digitVal_digitCh (d : ℕ) (hd : d < 10) : digitVal (digitCh d) = d := by
  interval_cases d <;> rfl

theorem isDigitCh_digitCh (d : ℕ) (hd : d < 10) : isDigitCh (digitCh d) = true := by
  interval_cases d <;> rfl

theorem ofDigitsCh_rev_map (ds : List ℕ) (hd : ∀ d ∈ ds, d < 10) :
    ofDigitsCh ((ds.map digitCh).reverse) = Nat.ofDigits 10 ds := by
  induction ds with
  | nil => rfl
  | cons d ds ih =>
    have hds : ∀ x ∈ ds, x < 10 := fun x hx => hd x (List.mem_cons_of_mem _ hx)
    have hrev : ((d :: ds).map digitCh).reverse = (ds.map digitCh).reverse ++ [digitCh d] := by
      simp
    rw [hrev, Nat.ofDigits_cons]
    unfold ofDigitsCh at *
    rw [List.foldl_append, ih hds]
    simp [digitVal_digitCh d (hd d (List.mem_cons_self d ds))]
    ring

/-- Round trip: parsing the decimal rendering of `n` gives back `n`. -/
theorem ofDigitsCh_natToDec (n : ℕ) : ofDigitsCh (natToDec n) = n := by
  by_cases hn : n = 0
  · subst hn; rfl
  · rw [natToDec_eq n hn, ofDigitsCh_rev_map _ (fun d hd => Nat.digits_lt_base (by norm_num) hd)]
    exact Nat.ofDigits_digits 10 n

theorem natToDec_all_digits (n : ℕ) : (natToDec n).all isDigitCh = true := by
  by_cases hn : n = 0
  · subst hn; rfl
  · rw [natToDec_eq n hn, List.all_eq_true]
    intro c hc
    rw [List.mem_reverse, List.mem_map] at hc
    obtain ⟨d, hd, rfl⟩ := hc
    exact isDigitCh_digitCh d (Nat.digits_lt_base (by norm_num) hd)

theorem natToDec_ne_nil (n : ℕ) : natToDec n ≠ [] := by
  by_cases hn : n = 0
  · subst hn; simp [natToDec]
  · rw [natToDec_eq n hn]
    simp [Nat.digits_ne_nil_iff_ne_zero, hn]

theorem natToDec_length_le (n k : ℕ) (hk : 0 < k) (h : n < 10 ^ k) :
    (natToDec n).length ≤ k := by
  by_cases hn : n = 0
  · subst hn; simpa [natToDec] using hk
  · rw [natToDec_eq n hn]
    simp only [List.length_reverse, List.length_map]
    by_contra hlen
    push_neg at hlen
    have h1 : 10 ^ (Nat.digits 10 n).length ≤ 10 * n :=
      Nat.base_pow_length_digits_le 10 n (by norm_num) hn
    have h2 : 10 ^ (k + 1) ≤ 10 ^ (Nat.digits 10 n).length :=
      Nat.pow_le_pow_right (by norm_num) (by omega)
    have h3 : 10 * 10 ^ k ≤ 10 * n := by
      calc 10 * 10 ^ k = 10 ^ (k + 1) := by ring
        _ ≤ 10 ^ (Nat.digits 10 n).length := h2
        _ ≤ 10 * n := h1
    have h4 : 10 ^ k ≤ n := Nat.le_of_mul_le_mul_left h3 (by norm_num)
    omega

/-! ### Fuel-based gcd and p-adic valuation -/

def gcdFuel : ℕ → ℕ → ℕ → ℕ
  | 0, a, _ => a
  | fuel + 1, a, b => if b = 0 then a else gcdFuel fuel b (a % b)

theorem gcdFuel_eq : ∀ fuel a b, b < fuel → gcdFuel fuel a b = Nat.gcd a b := by
  intro fuel
  induction fuel with
  | zero => intro a b h; omega
  | succ f ih =>
    intro a b h
    rw [gcdFuel]
    by_cases hb : b = 0
    · simp [hb]
    · rw [if_neg hb, ih b (a % b) (lt_of_lt_of_le (Nat.mod_lt a (Nat.pos_of_ne_zero hb)) (by omega))]
      rw [Nat.gcd_comm a b, Nat.gcd_rec b a, Nat.gcd_comm]

def myGcd (a b : ℕ) : ℕ := gcdFuel (b + 1) a b

theorem myGcd_eq (a b : ℕ) : myGcd a b = Nat.gcd a b :=
  gcdFuel_eq (b + 1) a b (Nat.lt_succ_self b)

/-- Number of times `p` divides `n` (0 when `p < 2` or `n = 0`), with fuel. -/
def pmultAux : ℕ → ℕ → ℕ → ℕ
  | 0, _, _ => 0
  | fuel + 1, p, n => if 2 ≤ p && n != 0 && n % p == 0 then pmultAux fuel p (n / p) + 1 else 0

def myPmult (p n : ℕ) : ℕ := pmultAux n p n

/-- Number of trailing decimal zeros of `n` (0 for `n = 0`), with fuel. -/
def stripAux : ℕ → ℕ → ℕ
  | 0, _ => 0
  | fuel + 1, n => if n != 0 && n % 10 == 0 then stripAux fuel (n / 10) + 1 else 0

def stripCount (n : ℕ) : ℕ := stripAux n n

/-! ### The JavaScript number model -/

/-- An exact model of a (finite) JavaScript number as a fraction
`num / den`.  `den = 0` encodes the infinities produced by dividing by
zero; model-produced values always have `0 < den`. -/
structure JNum where
  num : ℤ
  den : ℕ
deriving DecidableEq, Repr

/-- A JS value of TypeScript type `string | number` (`num none` is `NaN`). -/
inductive StrOrNum where
  | str (s : String)
  | num (x : Option JNum)

/-- Rounding half away from zero: rounds `a / b` (for `0 < b`) to the
nearest integer, ties away from zero safely in ℕ. -/
def halfRoundNat (a b : ℕ) : ℕ := (2 * a + b) / (2 * b)

/-- Rounding half away from zero of `a / b` as an integer. -/
def halfAwayDiv (a : ℤ) (b : ℕ) : ℤ :=
  if 0 ≤ a then (halfRoundNat a.toNat b : ℤ) else -(halfRoundNat (-a).toNat b : ℤ)

/-! ### JavaScript number-to-string (ECMA-262 Number::toString, radix 10) -/

/-- The positional branches of Number::toString: `ds` are the significant
decimal digits (no trailing zero) and the value is `ds × 10 ^ (n - k)`
with `k = ds.length`; decimal notation for `-6 < n ≤ 21`, otherwise
exponential notation. -/
def renderPosNum (ds : List Char) (n : ℤ) : List Char :=
  if (ds.length : ℤ) ≤ n ∧ n ≤ 21 then ds ++ List.replicate (n - ds.length).toNat '0'
  else if 0 < n ∧ n ≤ 21 then ds.take n.toNat ++ '.' :: ds.drop n.toNat
  else if -6 < n ∧ n ≤ 0 then '0' :: '.' :: (List.replicate (-n).toNat '0' ++ ds)
  else
    let ePart := 'e' ::
      (if 0 ≤ n - 1 then '+' :: natToDec (n - 1).toNat else '-' :: natToDec (1 - n).toNat)
    match ds with
    | [c] => c :: ePart
    | c :: rest => c :: '.' :: (rest ++ ePart)
    | [] => ePart

/-- String coercion of a finite JavaScript number, modelled exactly on
fractions.  `den = 0` renders the values JS division by zero would give;
a denominator with prime factors other than 2 and 5 cannot arise from an
IEEE double, and falls into an explicit fraction-shaped junk branch. -/
def jsNumToString (x : JNum) : String :=
  if x.den = 0 then
    (if 0 < x.num then "Infinity" else if x.num < 0 then "-Infinity" else "NaN")
  else if x.num = 0 then "0"
  else
    let a := x.num.natAbs
    let g := myGcd a x.den
    let nn := a / g
    let dd := x.den / g
    let e2 := myPmult 2 dd
    let e5 := myPmult 5 dd
    let sgn : List Char := if x.num < 0 then ['-'] else []
    if dd = 2 ^ e2 * 5 ^ e5 then
      let m := max e2 e5
      let N := nn * (10 ^ m / dd)
      let z := stripCount N
      let s := N / 10 ^ z
      let ds := natToDec s
      ⟨sgn ++ renderPosNum ds ((ds.length + z : ℤ) - m)⟩
    else
      ⟨sgn ++ natToDec nn ++ '/' :: natToDec dd⟩

/-- `${v}` for a possibly-NaN number. -/
def jsNumOptToStr : Option JNum → String
  | some x => jsNumToString x
  | none => "NaN"

/-! ### JavaScript string-to-number (unary numeric coercion) -/

def trimCh (l : List Char) : List Char :=
  ((l.dropWhile isWsCh).reverse.dropWhile isWsCh).reverse

/-- Parse an optional exponent suffix; the whole remainder must be empty or
a wellformed exponent part. -/
def parseExp : List Char → Option ℤ
  | [] => some 0
  | c :: r =>
    if c == 'e' || c == 'E' then
      let p : ℤ × List Char :=
        match r with
        | '+' :: r1 => (1, r1)
        | '-' :: r1 => (-1, r1)
        | r1 => (1, r1)
      let ds := p.2.takeWhile isDigitCh
      if ds.isEmpty || !(p.2.dropWhile isDigitCh).isEmpty then none
      else some (p.1 * ofDigitsCh ds)
    else none

/-- Parse the body (after the optional sign) of a decimal numeric literal:
`digits[.digits][exponent]` with at least one digit present. -/
def parseDecBody (l : List Char) : Option JNum :=
  let ds := l.takeWhile isDigitCh
  let r1 := l.dropWhile isDigitCh
  let fs := if r1.head? = some '.' then r1.tail.takeWhile isDigitCh else []
  let r2 := if r1.head? = some '.' then r1.tail.dropWhile isDigitCh else r1
  if ds.isEmpty && fs.isEmpty then none
  else
    match parseExp r2 with
    | none => none
    | some e =>
      let mant : ℕ := ofDigitsCh ds * 10 ^ fs.length + ofDigitsCh fs
      if 0 ≤ e then some ⟨(mant : ℤ) * 10 ^ e.toNat, 10 ^ fs.length⟩
      else some ⟨(mant : ℤ), 10 ^ (fs.length + (-e).toNat)⟩

/-- Value of a hexadecimal digit character. -/
def hexDigVal (c : Char) : ℕ :=
  if 'a' ≤ c && c ≤ 'f' then c.toNat - 87
  else if 'A' ≤ c && c ≤ 'F' then c.toNat - 55
  else digitVal c

/-- Is `c` a digit of the non-decimal radix `b` (2, 8 or 16)? -/
def isRadixDigCh (b : ℕ) (c : Char) : Bool :=
  (isDigitCh c && decide (digitVal c < b)) ||
    (decide (b = 16) && (('a' ≤ c && c ≤ 'f') || ('A' ≤ c && c ≤ 'F')))

def ofRadixAux (b : ℕ) : ℕ → List Char → ℕ
  | acc, [] => acc
  | acc, c :: r => ofRadixAux b (acc * b + hexDigVal c) r

/-- A `NonDecimalIntegerLiteral` body: one or more digits of radix `b`
filling the whole remainder (no sign, no fraction, no exponent). -/
def parseRadix (b : ℕ) (l : List Char) : Option JNum :=
  if l ≠ [] ∧ l.all (isRadixDigCh b) = true then some ⟨(ofRadixAux b 0 l : ℤ), 1⟩
  else none

/-- The radix marker following a leading `0`: `x`/`X`, `o`/`O`, `b`/`B`. -/
def radixMark : List Char → Option (ℕ × List Char)
  | c :: r =>
    if c = 'x' ∨ c = 'X' then some (16, r)
    else if c = 'o' ∨ c = 'O' then some (8, r)
    else if c = 'b' ∨ c = 'B' then some (2, r)
    else none
  | [] => none

/-- The signed decimal alternative of `StrNumericLiteral`. -/
def decParseSigned : List Char → Option JNum
  | [] => none
  | c :: r =>
    if c = '+' then parseDecBody r
    else if c = '-' then (parseDecBody r).map (fun x => ⟨-x.num, x.den⟩)
    else parseDecBody (c :: r)

/-- Model of JavaScript `ToNumber` on strings (unary `+`), per the ECMA
`StringNumericLiteral` grammar: whitespace-trimmed, the empty string is
`0`, a leading `0x`/`0o`/`0b` (either case) starts an unsigned
hex/octal/binary integer literal, and otherwise an optional sign precedes
`digits[.digits][e±digits]`.  `"Infinity"` is outside the model (the
model has no infinite values): it parses to `none`, which is
observationally the `NaN` fallback, and the `isNumber` collaborator is
false on infinities and `NaN` alike, so every function modelled here
takes the same branch on both. -/
def jsStringToNum (s : String) : Option JNum :=
  match trimCh s.data with
  | [] => some ⟨0, 1⟩
  | c :: r =>
    if c = '0' then
      match radixMark r with
      | some p => parseRadix p.1 p.2
      | none => decParseSigned (c :: r)
    else decParseSigned (c :: r)

/-! ### `string | number` values -/

/-- `${value}` for a `string | number` value. -/
def toJsString : StrOrNum → String
  | .str s => s
  | .num o => jsNumOptToStr o

/-- `+value` for a `string | number` value. -/
def toNumber : StrOrNum → Option JNum
  | .str s => jsStringToNum s
  | .num o => o

/-- Modelled from the spec: `isNumber(x)` is true iff `x` is a finite real
number (the imported `typeChecks.ts` is not under `src/`; spec §6).  All
represented values are finite; a coercion to `NaN` or to an infinity is
`none`, and `isNumber` is false on both. -/
def isNumberJS (o : Option JNum) : Bool := o.isSome

/-! ### formatPrecision -/

def chunk3Aux : ℕ → List Char → List (List Char)
  | 0, l => [l]
  | fuel + 1, l =>
    if l.length ≤ 3 then [l]
    else l.take (if l.length % 3 = 0 then 3 else l.length % 3) ::
      chunk3Aux fuel (l.drop (if l.length % 3 = 0 then 3 else l.length % 3))

/-- Split a digit string into groups of three counted from the right. -/
def chunk3 (l : List Char) : List (List Char) := chunk3Aux l.length l

def joinWith (sep : List Char) : List (List Char) → List Char
  | [] => []
  | [s] => s
  | s :: ss => s ++ sep ++ joinWith sep ss

/-- Modelled from the spec: `Number.prototype.toLocaleString("id-ID")`
with fixed minimum/maximum fraction digits — period as thousands
separator, comma as decimal separator, rounding half away from zero
(spec §4.2); the locale primitive is a platform collaborator, not
repository code. -/
def renderIdID (x : JNum) (p : ℕ) : String :=
  let n := halfAwayDiv (x.num * (10 : ℤ) ^ p) x.den
  let a := n.natAbs
  let ip := joinWith ['.'] (chunk3 (natToDec (a / 10 ^ p)))
  let fp := List.replicate (p - (natToDec (a % 10 ^ p)).length) '0' ++ natToDec (a % 10 ^ p)
  ⟨(if x.num < 0 then ['-'] else []) ++ ip ++ (if p = 0 then [] else ',' :: fp)⟩

/-- `formatPrecision` from `format.ts`: coerce, test `isNumber`, then
either the id-ID locale rendering or the original string. -/
def formatPrecision (value : StrOrNum) (precision : Option ℕ) : String :=
  match toNumber value with
  | some v => renderIdID v (precision.getD 2)
  | none => toJsString value

/-! ### formatBigNumber -/

/-- `Number.prototype.toFixed(d)` on the exact fraction model: magnitudes
of at least `10^21` fall back to Number::toString, otherwise the plain
decimal rendering with exactly `d` fraction digits, rounding half away
from zero, per ECMA-262. -/
def toFixedJN (x : JNum) (d : ℕ) : String :=
  if 10 ^ 21 * x.den ≤ x.num.natAbs then jsNumToString x
  else
    let n := halfAwayDiv (x.num * (10 : ℤ) ^ d) x.den
    let a := n.natAbs
    let ip := natToDec (a / 10 ^ d)
    let fp := List.replicate (d - (natToDec (a % 10 ^ d)).length) '0' ++ natToDec (a % 10 ^ d)
    ⟨(if x.num < 0 then ['-'] else []) ++ ip ++ (if d = 0 then [] else '.' :: fp)⟩

/-- Exact division of a JS number by a positive integer constant. -/
def JNum.divNat (x : JNum) (n : ℕ) : JNum := ⟨x.num, x.den * n⟩

/-- The strict comparison `v > n` of a fraction against an integer
threshold (cross-multiplied; `den` is positive for model values). -/
def jnGtNat (x : JNum) (n : ℕ) : Bool := (n : ℤ) * x.den < x.num

/-- `formatBigNumber` from `format.ts`. -/
def formatBigNumber (value : StrOrNum) : String :=
  match toNumber value with
  | some v =>
    if jnGtNat v 1000000000 then
      jsNumOptToStr (jsStringToNum (toFixedJN (v.divNat 1000000000) 3)) ++ "B"
    else if jnGtNat v 1000000 then
      jsNumOptToStr (jsStringToNum (toFixedJN (v.divNat 1000000) 3)) ++ "M"
    else if jnGtNat v 1000 then
      jsNumOptToStr (jsStringToNum (toFixedJN (v.divNat 1000) 3)) ++ "K"
    else toJsString value
  | none => toJsString value

/-! ### formatThousands -/

/-- The global replace `vl.replace(/(\d)(?=(\d{3})+$)/g, $1 => $1 + sign)`:
after every digit that is followed (to the end of the string) purely by
digits, a positive multiple of three of them, the separator is inserted. -/
def groupIns (sep : List Char) : List Char → List Char
  | [] => []
  | c :: r =>
    if isDigitCh c && !r.isEmpty && r.all isDigitCh && r.length % 3 == 0
    then c :: (sep ++ groupIns sep r)
    else c :: groupIns sep r

/-- `vl.split(".")` on characters. -/
def splitDot : List Char → List (List Char)
  | [] => [[]]
  | c :: r =>
    if c = '.' then [] :: splitDot r
    else
      match splitDot r with
      | s :: ss => (c :: s) :: ss
      | [] => [[c]]

/-- `formatThousands` from `format.ts`. -/
def formatThousands (value : StrOrNum) (sign : String) : String :=
  let vl := toJsString value
  if sign.length = 0 then vl
  else if '.' ∈ vl.data then
    match splitDot vl.data with
    | a :: b :: _ => ⟨groupIns sign.data a ++ '.' :: b⟩
    | _ => vl
  else ⟨groupIns sign.data vl.data⟩

/-! ### formatFoldDecimal -/

def lbraceCh : Char := Char.ofNat 123

def rbraceCh : Char := Char.ofNat 125

/-- Does `r` (the text following a literal dot) match
`0{n,}[1-9][0-9]*$`: at least `n` zeros, then a nonzero digit, then
digits running to the end? -/
def quantTailOk (n : ℕ) (r : List Char) : Bool :=
  decide (n ≤ (r.takeWhile (fun c => c == '0')).length) &&
    (match r.drop ((r.takeWhile (fun c => c == '0')).length) with
     | d :: ds => isNzDigitCh d && ds.all isDigitCh
     | [] => false)

/-- `RegExp("\\.0{" + t + ",}[1-9][0-9]*$").test vl` when the rendered
threshold `t` is a digit string (a valid `{n,}` quantifier). -/
def quantTest (n : ℕ) : List Char → Bool
  | [] => false
  | c :: r => (if c = '.' then quantTailOk n r else false) || quantTest n r

def litHere (X : List Char) (l : List Char) : Bool :=
  match l with
  | c1 :: c2 :: c3 :: r =>
    c1 == '.' && c2 == '0' && c3 == lbraceCh && X.isPrefixOf r &&
      (match r.drop X.length with
       | e1 :: e2 :: d :: ds => e1 == ',' && e2 == rbraceCh && isNzDigitCh d && ds.all isDigitCh
       | _ => false)
  | _ => false

/-- `RegExp("\\.0{" + t + ",}[1-9][0-9]*$").test vl` when the rendered
threshold `t` is not a digit string: per ECMA-262 Annex B the invalid
quantifier braces become literal pattern characters (the constructor does
not throw), so the pattern requires the literal text `.0{t,}` followed by
a nonzero digit and digits to the end.  Metacharacters that can survive
inside a rendered non-digit threshold (the dot of `1.5`, the plus of
`1e+21`) are approximated as literal characters here. -/
def litTest (X : List Char) : List Char → Bool
  | [] => false
  | c :: r => litHere X (c :: r) || litTest X r

/-- Length of the match of `/0*/` at the start of `v`. -/
def leadZeros (l : List Char) : ℕ := (l.takeWhile (fun c => c == '0')).length

def dollarCh : Char := '$'

/-- U+0060, the grave accent. -/
def gravCh : Char := Char.ofNat 96

/-- U+0027, the apostrophe. -/
def apoCh : Char := Char.ofNat 39

/-- ECMA-262 `GetSubstitution` for a *string* replacement whose pattern
has no capture groups: a dollar followed by a second dollar emits one
dollar, followed by an ampersand emits the matched text, followed by a
grave accent emits the text before the match, followed by an apostrophe
emits the text after the match; any other dollar (including digit
references, since there are no captures) stands for itself. -/
def expandRepl (matched pre post : List Char) : List Char → List Char
  | [] => []
  | [c] => [c]
  | c :: c2 :: r2 =>
    if c = dollarCh then
      if c2 = dollarCh then dollarCh :: expandRepl matched pre post r2
      else if c2 = '&' then matched ++ expandRepl matched pre post r2
      else if c2 = gravCh then pre ++ expandRepl matched pre post r2
      else if c2 = apoCh then post ++ expandRepl matched pre post r2
      else dollarCh :: expandRepl matched pre post (c2 :: r2)
    else c :: expandRepl matched pre post (c2 :: r2)

/-- `formatFoldDecimal` from `format.ts`.  The replacement
`` v.replace(/0*/, `0${format(count)}`) `` passes a string, so dollar
sequences inside it are interpreted by `GetSubstitution`; `/0*/` matches
the leading zero run of `v` at position 0, so the text before the match
is empty, the matched text is the zero run, and the text after it is the
remainder of the segment. -/
def formatFoldDecimal (value : StrOrNum) (threshold : Option JNum) (format : ℕ → String) :
    String :=
  let vl := toJsString value
  let tstr := jsNumOptToStr threshold
  let matched :=
    if tstr.data ≠ [] ∧ tstr.data.all isDigitCh = true
    then quantTest (ofDigitsCh tstr.data) vl.data
    else litTest tstr.data vl.data
  if matched then
    let segs := splitDot vl.data
    let v := segs.getLastD []
    let count := leadZeros v
    let v2 := expandRepl (v.take count) [] (v.drop count)
      ('0' :: (format count).data) ++ v.drop count
    ⟨joinWith ['.'] (segs.dropLast ++ [v2])⟩
  else vl

def formatFoldDecimalForCurlyBracket (value : StrOrNum) (threshold : Option JNum) : String :=
  formatFoldDecimal value threshold (fun count => ⟨lbraceCh :: (natToDec count ++ [rbraceCh])⟩)

/-- The `subscriptNumbers` lookup table; `?? ""` for unmapped characters. -/
def subscriptDigitCh (c : Char) : List Char :=
  if c == '0' then ['₀'] else if c == '1' then ['₁'] else if c == '2' then ['₂']
  else if c == '3' then ['₃'] else if c == '4' then ['₄'] else if c == '5' then ['₅']
  else if c == '6' then ['₆'] else if c == '7' then ['₇'] else if c == '8' then ['₈']
  else if c == '9' then ['₉'] else []

/-- `` `${count}`.replace(/\d/, $1 => subscriptNumbers[$1] ?? "") ``:
only the first digit is replaced (no `g` flag). -/
def replFirstDigit : List Char → List Char
  | [] => []
  | c :: r => if isDigitCh c then subscriptDigitCh c ++ r else c :: replFirstDigit r

def formatFoldDecimalForSubscript (value : StrOrNum) (threshold : Option JNum) : String :=
  formatFoldDecimal value threshold (fun count => ⟨replFirstDigit (natToDec count)⟩)

/-! ### formatValue: data model and path tokenizer -/

/-- A dynamically-typed JS data value (`unknown`), as traversed by
`formatValue`.  Objects are string-keyed field lists; arrays are not
separately modelled (numeric-looking keys are plain strings, spec §4.1). -/
inductive Value where
  | undef
  | vnull
  | vbool (b : Bool)
  | vnum (x : Option JNum)
  | vstr (s : String)
  | obj (fields : List (String × Value))

/-- Modelled from the spec: `isValid(x)` is true iff `x` is neither null
nor undefined (the imported `typeChecks.ts` is not under `src/`; spec §6). -/
def isValidV : Value → Bool
  | .undef => false
  | .vnull => false
  | _ => true

/-- Dynamic member access `value?.[key]`: objects yield the named field
(`undefined` when absent); primitives have no modelled string-keyed
properties. -/
def indexV : Value → String → Value
  | .obj fields, key =>
    match fields.find? (fun p => p.1 == key) with
    | some p => p.2
    | none => .undef
  | _, _ => .undef

def notBareCh (c : Char) : Bool := c == '.' || c == '[' || c == ']'

def quoteCh (c : Char) : Bool := c == '"' || c == '\''

/-- `content.replace(reEscapeChar, "$1")` with `reEscapeChar = /\\(\\)?/g`:
a double backslash collapses to one, a single backslash is removed. -/
def collapseEsc : List Char → List Char
  | [] => []
  | '\\' :: '\\' :: r2 => '\\' :: collapseEsc r2
  | ['\\'] => []
  | '\\' :: c :: r2 => collapseEsc (c :: r2)
  | c :: r => c :: collapseEsc r

/-- A `LineTerminator`: LF, CR, LS, PS (these are what `.` excludes). -/
def isLTCh (c : Char) : Bool :=
  c == '\n' || c == '\r' || c == Char.ofNat 8232 || c == Char.ofNat 8233

/-- Scan the inside of a quoted bracket segment
`(["'])((?:(?!\2)[^\\]|\\.)*?)\2\]`: content units are non-quote
non-backslash characters or backslash escapes (`\\.`, whose dot excludes
line terminators), closed by the quote followed by `]`.  Returns the raw
content and the rest of the input. -/
def quotedAux (q : Char) : ℕ → List Char → Option (List Char × List Char)
  | 0, _ => none
  | _ + 1, [] => none
  | fuel + 1, c :: r =>
    if c == q then
      match r with
      | ']' :: r2 => some ([], r2)
      | _ => none
    else if c == '\\' then
      match r with
      | c2 :: r2 =>
        if isLTCh c2 then none
        else (quotedAux q fuel r2).map (fun p => (c :: c2 :: p.1, p.2))
      | [] => none
    else (quotedAux q fuel r).map (fun p => (c :: p.1, p.2))

def lastRBracketIdx (l : List Char) : Option ℕ :=
  match l.reverse.findIdx? (fun c => c == ']') with
  | some i => some (l.length - 1 - i)
  | none => none

/-- Backtracking of `([^"'][^[]*)\]`: the greedy content is cut back to
the last `]` inside `full` (which must leave at least one content
character); scanning resumes after that `]`. -/
def unqSplit (full : List Char) (tail : List Char) : Option (List Char × List Char) :=
  match lastRBracketIdx full with
  | some j => if 1 ≤ j then some (full.take j, full.drop (j + 1) ++ tail) else none
  | none => none

def sepTok : List Char → Option (List Char)
  | '.' :: r => some r
  | '[' :: ']' :: r => some r
  | _ => none

/-- The zero-width alternative `(?=(?:\.|\[\])(?:\.|\[\]|$))`. -/
def zwAhead (l : List Char) : Bool :=
  match sepTok l with
  | some r => r.isEmpty || (sepTok r).isSome
  | none => false

/-- The scan loop of `key.replace(rePropName, cb)`: at each position try,
in order, a bare run `[^.[\]]+`, a bracket segment (quoted or unquoted),
and the zero-width separator lookahead; on a zero-width match or no match
the scan advances one character.  Bare tokens are kept verbatim, unquoted
bracket tokens are trimmed, quoted bracket tokens get escapes collapsed. -/
def tokScan : ℕ → List Char → List String
  | 0, _ => []
  | _ + 1, [] => []
  | fuel + 1, c :: r =>
    if !notBareCh c then
      ⟨(c :: r).takeWhile (fun x => !notBareCh x)⟩ ::
        tokScan fuel ((c :: r).dropWhile (fun x => !notBareCh x))
    else if c == '[' then
      match r with
      | [] => tokScan fuel r
      | c1 :: rest2 =>
        if quoteCh c1 then
          match quotedAux c1 (fuel + 1) rest2 with
          | some p => ⟨collapseEsc p.1⟩ :: tokScan fuel p.2
          | none => if zwAhead (c :: r) then "" :: tokScan fuel r else tokScan fuel r
        else
          match unqSplit (c1 :: rest2.takeWhile (fun x => x != '['))
              (rest2.dropWhile (fun x => x != '[')) with
          | some p => ⟨trimCh p.1⟩ :: tokScan fuel p.2
          | none => if zwAhead (c :: r) then "" :: tokScan fuel r else tokScan fuel r
    else
      if zwAhead (c :: r) then "" :: tokScan fuel r else tokScan fuel r

/-- The token list pushed by `key.replace(rePropName, ...)`. -/
def tokenizePath (key : String) : List String := tokScan (key.data.length + 1) key.data

/-- `defaultValue ?? "--"`. -/
def coalesceDflt (d : Value) : Value := if isValidV d then d else .vstr "--"

/-- The `while (isValid(value) && index < length)` traversal loop. -/
def walkPath : Value → List String → Value
  | v, [] => v
  | v, k :: rest => if isValidV v then walkPath (indexV v k) rest else v

/-- `formatValue` from `format.ts`.  The omitted optional `defaultValue`
is `Value.undef`. -/
def formatValue (data : Value) (key : String) (defaultValue : Value) : Value :=
  if isValidV data then
    let w := walkPath data (tokenizePath key)
    if isValidV w then w else coalesceDflt defaultValue
  else coalesceDflt defaultValue

/-! ### formatDateToDateTime / formatDateToString -/

/-- The part types recognised by `formatDateToDateTime`; every other
`Intl.DateTimeFormat` part type behaves like `other`. -/
inductive PartT where
  | year
  | month
  | day
  | hour
  | minute
  | second
  | other
deriving DecidableEq

/-- The injected `Intl.DateTimeFormat` collaborator, abstracted (spec §6)
as a function from the timestamp to its `formatToParts` sequence. -/
def DTFormat := ℤ → List (PartT × String)

/-- The `DateTime` record under construction; fields start out absent. -/
structure DateTimeRec where
  YYYY : Option String
  MM : Option String
  DD : Option String
  HH : Option String
  mm : Option String
  ss : Option String

/-- One step of the `forEach` switch, including the `"24" → "00"` hour
normalisation. -/
def dtStep (d : DateTimeRec) (p : PartT × String) : DateTimeRec :=
  match p.1 with
  | .year => { d with YYYY := some p.2 }
  | .month => { d with MM := some p.2 }
  | .day => { d with DD := some p.2 }
  | .hour => { d with HH := some (if p.2 = "24" then "00" else p.2) }
  | .minute => { d with mm := some p.2 }
  | .second => { d with ss := some p.2 }
  | .other => d

/-- `formatDateToDateTime` from `format.ts`. -/
def formatDateToDateTime (fmt : DTFormat) (timestamp : ℤ) : DateTimeRec :=
  (fmt timestamp).foldl dtStep ⟨none, none, none, none, none, none⟩

/-- A callback returning `undefined` (a missing record field) is coerced
to the string `"undefined"` by `String.prototype.replace`. -/
def undefStr : String := "undefined"

/-- The alternation `YYYY|MM|DD|HH|mm|ss` tried at the current position:
the matched token's part type and the rest of the input, or `none`.  The
six tokens are pairwise distinguished by their first character, so trying
them in alternation order is a dispatch on the head. -/
def dtTok : List Char → Option (PartT × List Char)
  | c1 :: c2 :: r =>
    if c1 = 'Y' then
      (if c2 = 'Y' then
        (match r with
         | c3 :: c4 :: r2 =>
           if c3 = 'Y' then (if c4 = 'Y' then some (.year, r2) else none) else none
         | _ => none)
       else none)
    else if c1 = 'M' then (if c2 = 'M' then some (.month, r) else none)
    else if c1 = 'D' then (if c2 = 'D' then some (.day, r) else none)
    else if c1 = 'H' then (if c2 = 'H' then some (.hour, r) else none)
    else if c1 = 'm' then (if c2 = 'm' then some (.minute, r) else none)
    else if c1 = 's' then (if c2 = 's' then some (.second, r) else none)
    else none
  | _ => none

/-- The replacement callback `key => date[key]`. -/
def dtVal (d : DateTimeRec) : PartT → String
  | .year => d.YYYY.getD undefStr
  | .month => d.MM.getD undefStr
  | .day => d.DD.getD undefStr
  | .hour => d.HH.getD undefStr
  | .minute => d.mm.getD undefStr
  | .second => d.ss.getD undefStr
  | .other => undefStr

/-- `format.replace(/YYYY|MM|DD|HH|mm|ss/g, key => date[key])`: scan left
to right, substituting each non-overlapping token occurrence and never
re-matching substituted text; on no match the scan advances one
character.  Fuel-based: each step consumes at least one character, so the
input length is enough fuel. -/
def replaceDT (d : DateTimeRec) : ℕ → List Char → List Char
  | 0, l => l
  | _ + 1, [] => []
  | fuel + 1, c :: r =>
    match dtTok (c :: r) with
    | some q => (dtVal d q.1).data ++ replaceDT d fuel q.2
    | none => c :: replaceDT d fuel r

/-- `formatDateToString` from `format.ts`. -/
def formatDateToString (fmt : DTFormat) (timestamp : ℤ) (format : String) : String :=
  ⟨replaceDT (formatDateToDateTime fmt timestamp) format.data.length format.data⟩

/-! ### Spec-side auxiliary definitions -/

/-- Split at the first decimal point, when one exists (spec §4.2's
"split on the first decimal point"). -/
def breakFirstDot : List Char → Option (List Char × List Char)
  | [] => none
  | c :: r =>
    if c = '.' then some ([], r)
    else (breakFirstDot r).map (fun q => (c :: q.1, q.2))

/-- `formatThousands` as the spec describes it: split on the *first*
decimal point, group the integer part, rejoin with the original
fractional part. -/
def specThousands (vl : String) (s : String) : String :=
  if s.length = 0 then vl
  else
    match breakFirstDot vl.data with
    | some q => ⟨groupIns s.data q.1 ++ '.' :: q.2⟩
    | none => ⟨groupIns s.data vl.data⟩

/-! ### splitDot / joinWith lemmas -/
theorem splitDot_ne_nil (l : List Char) : splitDot l ≠ [] := by
  induction l with
  | nil => simp [splitDot]
  | cons c r ih =>
    rw [splitDot]
    split
    · simp
    · match hm : splitDot r with
      | s :: ss => simp
      | [] => exact absurd hm ih

theorem splitDot_cons_ne_dot (c : Char) (r : List Char) (hc : c ≠ '.') :
    splitDot (c :: r) = (c :: (splitDot r).headD []) :: (splitDot r).tail := by
  rw [splitDot, if_neg hc]
  match hm : splitDot r with
  | s :: ss => simp [hm]
  | [] => exact absurd hm (splitDot_ne_nil r)

theorem splitDot_cons_dot (r : List Char) : splitDot ('.' :: r) = [] :: splitDot r := by
  rw [splitDot, if_pos rfl]

theorem splitDot_no_dot (l : List Char) (h : '.' ∉ l) : splitDot l = [l] := by
  induction l with
  | nil => rfl
  | cons c r ih =>
    have hc : c ≠ '.' := fun hh => h (hh ▸ List.mem_cons_self c r)
    have hr : '.' ∉ r := fun hh => h (List.mem_cons_of_mem c hh)
    rw [splitDot_cons_ne_dot c r hc, ih hr]
    simp

theorem splitDot_append (A B : List Char) :
    splitDot (A ++ '.' :: B) = splitDot A ++ splitDot B := by
  induction A with
  | nil => simp [splitDot_cons_dot, splitDot]
  | cons c r ih =>
    by_cases hc : c = '.'
    · subst hc
      rw [List.cons_append, splitDot_cons_dot, splitDot_cons_dot, ih]
      simp
    · rw [List.cons_append, splitDot_cons_ne_dot c _ hc, splitDot_cons_ne_dot c r hc, ih]
      rcases List.exists_cons_of_ne_nil (splitDot_ne_nil r) with ⟨s, ss, hm⟩
      rw [hm]
      simp

theorem joinWith_dot_splitDot (l : List Char) : joinWith ['.'] (splitDot l) = l := by
  induction l with
  | nil => rfl
  | cons c r ih =>
    by_cases hc : c = '.'
    · subst hc
      rw [splitDot_cons_dot]
      rcases List.exists_cons_of_ne_nil (splitDot_ne_nil r) with ⟨s, ss, hm⟩
      rw [hm] at ih ⊢
      show [] ++ ['.'] ++ joinWith ['.'] (s :: ss) = '.' :: r
      simp [ih]
    · rw [splitDot_cons_ne_dot c r hc]
      rcases List.exists_cons_of_ne_nil (splitDot_ne_nil r) with ⟨s, ss, hm⟩
      rw [hm] at ih ⊢
      match ss with
      | [] => simpa [joinWith] using congrArg (c :: ·) ih
      | t :: ts =>
        show (c :: s) ++ ['.'] ++ joinWith ['.'] (t :: ts) = c :: r
        simpa [joinWith] using congrArg (c :: ·) ih

theorem splitDot_mem_no_dot (l : List Char) : ∀ seg ∈ splitDot l, '.' ∉ seg := by
  induction l with
  | nil => intro seg hseg; simp [splitDot] at hseg; simp [hseg]
  | cons c r ih =>
    by_cases hc : c = '.'
    · subst hc
      rw [splitDot_cons_dot]
      intro seg hseg
      rcases List.mem_cons.mp hseg with h | h
      · simp [h]
      · exact ih seg h
    · rw [splitDot_cons_ne_dot c r hc]
      rcases List.exists_cons_of_ne_nil (splitDot_ne_nil r) with ⟨s, ss, hm⟩
      rw [hm]
      intro seg hseg
      rcases List.mem_cons.mp hseg with h | h
      · subst h
        intro hmem
        rcases List.mem_cons.mp hmem with h2 | h2
        · exact hc h2.symm
        · exact ih s (hm ▸ List.mem_cons_self s ss) h2
      · exact ih seg (hm ▸ List.mem_cons_of_mem s h)

theorem splitDot_two_le (l : List Char) (h : '.' ∈ l) : 2 ≤ (splitDot l).length := by
  obtain ⟨A, B, rfl⟩ := List.append_of_mem h
  rw [splitDot_append]
  rcases List.exists_cons_of_ne_nil (splitDot_ne_nil A) with ⟨a, as, ha⟩
  rcases List.exists_cons_of_ne_nil (splitDot_ne_nil B) with ⟨b, bs, hb⟩
  rw [ha, hb]
  simp
  omega

theorem joinWith_append_singleton (sep : List Char) (xs : List (List Char)) (b : List Char)
    (h : xs ≠ []) : joinWith sep (xs ++ [b]) = joinWith sep xs ++ sep ++ b := by
  induction xs with
  | nil => exact absurd rfl h
  | cons s ss ih =>
    match ss with
    | [] => simp [joinWith]
    | t :: ts =>
      have hh := ih (by simp)
      show s ++ sep ++ joinWith sep ((t :: ts) ++ [b]) =
        (s ++ sep ++ joinWith sep (t :: ts)) ++ sep ++ b
      rw [hh]
      simp

/-! ### groupIns and chunk3 lemmas -/

/-- The insertion condition of `groupIns`, in propositional form. -/
theorem groupCond_iff (c : Char) (r : List Char) :
    (isDigitCh c && !r.isEmpty && r.all isDigitCh && r.length % 3 == 0) = true ↔
    (isDigitCh c = true ∧ r ≠ [] ∧ (∀ x ∈ r, isDigitCh x = true) ∧ r.length % 3 = 0) := by
  simp [List.all_eq_true, and_assoc, List.isEmpty_iff]

theorem groupIns_cons (sep : List Char) (c : Char) (r : List Char) :
    groupIns sep (c :: r) =
      (if isDigitCh c = true ∧ r ≠ [] ∧ (∀ x ∈ r, isDigitCh x = true) ∧ r.length % 3 = 0
       then c :: (sep ++ groupIns sep r) else c :: groupIns sep r) := by
  rw [groupIns]
  by_cases h : (isDigitCh c && !r.isEmpty && r.all isDigitCh && r.length % 3 == 0) = true
  · rw [if_pos h, if_pos ((groupCond_iff c r).mp h)]
  · rw [if_neg h, if_neg (fun hcon => h ((groupCond_iff c r).mpr hcon))]

theorem groupIns_short (sep : List Char) : ∀ l : List Char, l.length ≤ 3 → groupIns sep l = l := by
  intro l
  induction l with
  | nil => intro _; rfl
  | cons c r ih =>
    intro h
    have hr2 : r.length ≤ 2 := by
      have := List.length_cons c r ▸ h
      omega
    rw [groupIns_cons]
    have hcond : ¬(isDigitCh c = true ∧ r ≠ [] ∧ (∀ x ∈ r, isDigitCh x = true) ∧
        r.length % 3 = 0) := by
      rintro ⟨-, hne, -, hmod⟩
      have h3 : 1 ≤ r.length := List.length_pos.mpr hne
      omega
    rw [if_neg hcond, ih (by omega)]

theorem groupIns_seg (sep : List Char) : ∀ a b : List Char,
    (∀ x ∈ a, isDigitCh x = true) → (∀ x ∈ b, isDigitCh x = true) →
    1 ≤ a.length → a.length ≤ 3 → b.length % 3 = 0 → b ≠ [] →
    groupIns sep (a ++ b) = a ++ sep ++ groupIns sep b := by
  intro a
  induction a with
  | nil => intro b _ _ h1 _ _ _; simp at h1
  | cons c a' ih =>
    intro b hda hdb ha1 ha3 hb3 hb
    rcases a' with _ | ⟨c2, a''⟩
    · show groupIns sep (c :: b) = [c] ++ sep ++ groupIns sep b
      rw [groupIns_cons, if_pos ⟨hda c (List.mem_cons_self c []), hb, hdb, hb3⟩]
      simp
    · have ha''2 : a''.length ≤ 1 := by
        have := List.length_cons c (c2 :: a'') ▸ ha3
        simp at this ⊢
        omega
      have hlen : ((c2 :: a'') ++ b).length % 3 ≠ 0 := by
        simp only [List.length_append, List.length_cons]
        omega
      show groupIns sep (c :: ((c2 :: a'') ++ b)) = _
      rw [groupIns_cons]
      have hcond : ¬(isDigitCh c = true ∧ (c2 :: a'') ++ b ≠ [] ∧
          (∀ x ∈ (c2 :: a'') ++ b, isDigitCh x = true) ∧ ((c2 :: a'') ++ b).length % 3 = 0) := by
        rintro ⟨-, -, -, hmod⟩
        exact hlen hmod
      rw [if_neg hcond]
      have hda' : ∀ x ∈ (c2 :: a''), isDigitCh x = true := fun x hx =>
        hda x (List.mem_cons_of_mem c hx)
      rw [ih b hda' hdb (by simp) (by simp; omega) hb3 hb]
      simp

theorem chunk3Aux_step (fuel : ℕ) (l : List Char) (h : ¬ l.length ≤ 3) :
    chunk3Aux (fuel + 1) l = l.take (if l.length % 3 = 0 then 3 else l.length % 3) ::
      chunk3Aux fuel (l.drop (if l.length % 3 = 0 then 3 else l.length % 3)) := by
  rw [chunk3Aux, if_neg h]

theorem chunk3Aux_congr : ∀ f1 f2 l, l.length ≤ f1 → l.length ≤ f2 →
    chunk3Aux f1 l = chunk3Aux f2 l := by
  intro f1
  induction f1 with
  | zero =>
    intro f2 l h1 _
    have hl : l = [] := List.eq_nil_of_length_eq_zero (by omega)
    subst hl
    rcases f2 with _ | f2
    · rfl
    · simp [chunk3Aux]
  | succ f ih =>
    intro f2 l h1 h2
    rcases f2 with _ | f2
    · have hl : l = [] := List.eq_nil_of_length_eq_zero (by omega)
      subst hl
      simp [chunk3Aux]
    · by_cases hl : l.length ≤ 3
      · rw [chunk3Aux, if_pos hl, chunk3Aux, if_pos hl]
      · rw [chunk3Aux_step f l hl, chunk3Aux_step f2 l hl]
        have hg : 1 ≤ (if l.length % 3 = 0 then 3 else l.length % 3) := by split <;> omega
        have hd1 : (l.drop (if l.length % 3 = 0 then 3 else l.length % 3)).length ≤ f := by
          rw [List.length_drop]; omega
        have hd2 : (l.drop (if l.length % 3 = 0 then 3 else l.length % 3)).length ≤ f2 := by
          rw [List.length_drop]; omega
        rw [ih _ _ hd1 hd2]

theorem chunk3_short (l : List Char) (h : l.length ≤ 3) : chunk3 l = [l] := by
  unfold chunk3
  rcases hn : l.length with _ | n
  · have hl : l = [] := List.eq_nil_of_length_eq_zero hn
    subst hl
    rfl
  · rw [chunk3Aux, if_pos h]

theorem chunk3_step (l : List Char) (h : 4 ≤ l.length) :
    chunk3 l = l.take (if l.length % 3 = 0 then 3 else l.length % 3) ::
      chunk3 (l.drop (if l.length % 3 = 0 then 3 else l.length % 3)) := by
  have h1 : chunk3 l = chunk3Aux ((l.length - 1) + 1) l := by
    unfold chunk3; congr 1; omega
  rw [h1, chunk3Aux_step _ _ (by omega)]
  congr 1
  have hg : 1 ≤ (if l.length % 3 = 0 then 3 else l.length % 3) := by split <;> omega
  unfold chunk3
  apply chunk3Aux_congr
  · rw [List.length_drop]; omega
  · exact le_refl _

theorem groupIns_eq_chunk3 (sep : List Char) :
    ∀ n l, l.length = n → (∀ x ∈ l, isDigitCh x = true) →
      groupIns sep l = joinWith sep (chunk3 l) := by
  intro n
  induction n using Nat.strong_induction_on with
  | _ n ih =>
    intro l hlen hdig
    by_cases h3 : l.length ≤ 3
    · rw [groupIns_short sep l h3, chunk3_short l h3]
      rfl
    · push_neg at h3
      set g0 := if l.length % 3 = 0 then 3 else l.length % 3 with hg0
      have hg1 : 1 ≤ g0 := by rw [hg0]; split <;> omega
      have hg3 : g0 ≤ 3 := by rw [hg0]; split <;> omega
      have htake : (l.take g0).length = g0 := by
        rw [List.length_take]; omega
      have hdrop : (l.drop g0).length = l.length - g0 := List.length_drop g0 l
      have hmod : (l.drop g0).length % 3 = 0 := by
        rw [hdrop, hg0]
        split <;> omega
      have hsplit : l.take g0 ++ l.drop g0 = l := List.take_append_drop g0 l
      have hdrop_ne : l.drop g0 ≠ [] := by
        intro hcon
        have hcon2 := congrArg List.length hcon
        rw [hdrop] at hcon2
        simp at hcon2
        omega
      have hdig_take : ∀ x ∈ l.take g0, isDigitCh x = true := fun x hx =>
        hdig x (List.mem_of_mem_take hx)
      have hdig_drop : ∀ x ∈ l.drop g0, isDigitCh x = true := fun x hx =>
        hdig x (List.mem_of_mem_drop hx)
      have hseg := groupIns_seg sep (l.take g0) (l.drop g0) hdig_take hdig_drop
        (by omega) (by omega) hmod hdrop_ne
      rw [hsplit] at hseg
      rw [hseg, chunk3_step l (by omega), ← hg0]
      rw [ih (l.length - g0) (by omega) (l.drop g0) hdrop hdig_drop]
      rcases hch : chunk3 (l.drop g0) with _ | ⟨x, xs⟩
      · exfalso
        by_cases hd3 : (l.drop g0).length ≤ 3
        · rw [chunk3_short _ hd3] at hch; simp at hch
        · rw [chunk3_step _ (by omega)] at hch; simp at hch
      · show _ = l.take g0 ++ sep ++ joinWith sep (x :: xs)
        rfl

/-! ### Decomposition by the number of dots -/

theorem count_one_decomp (l : List Char) (h : l.count '.' = 1) :
    ∃ A B, l = A ++ '.' :: B ∧ '.' ∉ A ∧ '.' ∉ B := by
  induction l with
  | nil => simp at h
  | cons c r ih =>
    by_cases hc : c = '.'
    · subst hc
      have hr : r.count '.' = 0 := by
        rw [List.count_cons_self] at h
        omega
      exact ⟨[], r, rfl, by simp, List.count_eq_zero.mp hr⟩
    · have hr : r.count '.' = 1 := by
        rw [List.count_cons_of_ne (fun hcon => hc hcon.symm)] at h
        exact h
      obtain ⟨A, B, hAB, hA, hB⟩ := ih hr
      refine ⟨c :: A, B, by rw [hAB]; rfl, ?_, hB⟩
      intro hmem
      rcases List.mem_cons.mp hmem with h2 | h2
      · exact hc h2.symm
      · exact hA h2

theorem breakFirstDot_some (A B : List Char) (hA : '.' ∉ A) :
    breakFirstDot (A ++ '.' :: B) = some (A, B) := by
  induction A with
  | nil => rfl
  | cons c r ih =>
    have hc : c ≠ '.' := fun hh => hA (hh ▸ List.mem_cons_self c r)
    have hr : '.' ∉ r := fun hh => hA (List.mem_cons_of_mem c hh)
    show breakFirstDot (c :: (r ++ '.' :: B)) = _
    rw [breakFirstDot, if_neg hc, ih hr]
    rfl

theorem breakFirstDot_none (l : List Char) (h : '.' ∉ l) : breakFirstDot l = none := by
  induction l with
  | nil => rfl
  | cons c r ih =>
    have hc : c ≠ '.' := fun hh => h (hh ▸ List.mem_cons_self c r)
    have hr : '.' ∉ r := fun hh => h (List.mem_cons_of_mem c hh)
    rw [breakFirstDot, if_neg hc, ih hr]
    rfl

/-! ### Claim C6 -/

/-- C6 counterexample: `formatThousands` keeps only the first two
`split(".")` segments, so for the string `"1.2.3"` the code returns
`"1.2"` while the claim ("rejoins with the original fractional part")
demands `"1.2.3"` (which is what the spec-faithful `specThousands`
computes). -/
theorem claim_C6_counterexample :
    formatThousands (.str "1.2.3") "," = "1.2" ∧
      specThousands (toJsString (.str "1.2.3")) "," = "1.2.3" := by
  constructor <;> rfl

/-- C6 (amended): for every value whose stringification contains at most
one decimal point, `formatThousands` stringifies, returns the string
unchanged for the empty separator, and otherwise splits at the first
decimal point, inserts the separator into the integer part after every
group of three digits counted from the right (`chunk3`), and rejoins with
the fractional part; values with two or more dots keep only the first two
split segments (see the counterexample). -/
theorem claim_C6_thousands :
    (∀ (v : StrOrNum) (s : String), (toJsString v).data.count '.' ≤ 1 →
      formatThousands v s = specThousands (toJsString v) s) ∧
    (∀ (s : String) (l : List Char), (∀ x ∈ l, isDigitCh x = true) →
      groupIns s.data l = joinWith s.data (chunk3 l)) ∧
    formatThousands (.num (some ⟨1234567, 1⟩)) "," = "1,234,567" ∧
    formatThousands (.num (some ⟨1234567, 1⟩)) "" = "1234567" ∧
    formatThousands (.num (some ⟨12345678, 10 ^ 4⟩)) "," = "1,234.5678" := by
  refine ⟨?_, ?_, rfl, rfl, rfl⟩
  · intro v s h
    unfold formatThousands specThousands
    by_cases hs : s.length = 0
    · rw [if_pos hs, if_pos hs]
    · rw [if_neg hs, if_neg hs]
      rcases hcount : (toJsString v).data.count '.' with _ | n
      · have hmem : '.' ∉ (toJsString v).data := List.count_eq_zero.mp hcount
        rw [if_neg hmem, breakFirstDot_none _ hmem]
      · have h1 : (toJsString v).data.count '.' = 1 := by omega
        obtain ⟨A, B, hAB, hA, hB⟩ := count_one_decomp _ h1
        have hmem : '.' ∈ (toJsString v).data := by
          rw [hAB]
          exact List.mem_append_right A (List.mem_cons_self '.' B)
        rw [if_pos hmem, hAB, breakFirstDot_some A B hA, splitDot_append,
          splitDot_no_dot A hA, splitDot_no_dot B hB]
        rfl
  · intro s l hdig
    exact groupIns_eq_chunk3 s.data l.length l rfl hdig

/-- C6 witness: the amended split statement applied at a concrete input. -/
theorem claim_C6_witness :
    formatThousands (.str "12.5") "," = specThousands (toJsString (.str "12.5")) "," :=
  claim_C6_thousands.1 (.str "12.5") "," (by decide)

/-! ### Maximal all-digit suffixes and groupIns idempotence -/

/-- Length of the maximal all-digit suffix. -/
def mdsl : List Char → ℕ
  | [] => 0
  | c :: r => if isDigitCh c && r.all isDigitCh then r.length + 1 else mdsl r

theorem mdsl_le_length (l : List Char) : mdsl l ≤ l.length := by
  induction l with
  | nil => simp [mdsl]
  | cons c r ih =>
    rw [mdsl]
    split
    · simp
    · simp only [List.length_cons]
      omega

theorem mdsl_all_digits (l : List Char) (h : l.all isDigitCh = true) : mdsl l = l.length := by
  cases l with
  | nil => rfl
  | cons c r =>
    rw [mdsl]
    simp only [List.all_cons, Bool.and_eq_true] at h
    rw [if_pos (by simp [h.1, h.2])]
    rfl

theorem mdsl_append_not_all (a b : List Char) (h : b.all isDigitCh = false) :
    mdsl (a ++ b) = mdsl b := by
  induction a with
  | nil => rfl
  | cons c a' ih =>
    show mdsl (c :: (a' ++ b)) = mdsl b
    rw [mdsl]
    have hall : (a' ++ b).all isDigitCh = false := by
      rw [List.all_append, h]
      simp
    rw [if_neg (by simp [hall]), ih]

theorem mdsl_append_all (a b : List Char) (h : b.all isDigitCh = true) :
    mdsl (a ++ b) = mdsl a + b.length := by
  induction a with
  | nil =>
    show mdsl b = mdsl [] + b.length
    rw [mdsl_all_digits b h]
    simp [mdsl]
  | cons c a' ih =>
    show mdsl (c :: (a' ++ b)) = mdsl (c :: a') + b.length
    rw [mdsl, mdsl]
    by_cases hc : (isDigitCh c && (a' ++ b).all isDigitCh) = true
    · have ha' : a'.all isDigitCh = true := by
        simp only [Bool.and_eq_true, List.all_append] at hc
        exact hc.2.1
      rw [if_pos hc, if_pos (by simp [ha', (Bool.and_eq_true _ _).mp hc |>.1])]
      simp only [List.length_append]
      omega
    · have hc2 : ¬(isDigitCh c && a'.all isDigitCh) = true := by
        intro hcon
        apply hc
        simp only [Bool.and_eq_true, List.all_append] at hcon ⊢
        exact ⟨hcon.1, hcon.2, h⟩
      rw [if_neg hc, if_neg hc2, ih]

theorem mdsl_zero_of_no_digits (l : List Char) (h : ∀ c ∈ l, isDigitCh c = false) :
    mdsl l = 0 := by
  induction l with
  | nil => rfl
  | cons c r ih =>
    rw [mdsl, if_neg (by simp [h c (List.mem_cons_self c r)])]
    exact ih (fun x hx => h x (List.mem_cons_of_mem c hx))

/-- Every list splits as a prefix ending in a non-digit (or empty)
followed by its maximal all-digit suffix. -/
theorem mdsl_decomp (l : List Char) : ∃ p t, l = p ++ t ∧ t.all isDigitCh = true ∧
    t.length = mdsl l ∧ (∀ c, p.getLast? = some c → isDigitCh c = false) := by
  induction l with
  | nil => exact ⟨[], [], rfl, rfl, rfl, by simp⟩
  | cons c r ih =>
    by_cases hc : (isDigitCh c && r.all isDigitCh) = true
    · refine ⟨[], c :: r, rfl, ?_, ?_, by simp⟩
      · simp only [List.all_cons]
        exact hc
      · rw [mdsl, if_pos hc]
        rfl
    · obtain ⟨p, t, hpt, ht, hlen, hlast⟩ := ih
      refine ⟨c :: p, t, by rw [hpt]; rfl, ht, ?_, ?_⟩
      · rw [mdsl, if_neg hc]
        exact hlen
      · intro x hx
        rcases p with _ | ⟨q, qs⟩
        · simp at hx
          subst hx
          simp only [List.nil_append] at hpt
          subst hpt
          by_contra hdig
          have hdig2 : isDigitCh c = true := by
            cases hh : isDigitCh c
            · exact absurd hh hdig
            · rfl

          exact hc (by simp [ht, hdig2])
        · rw [List.getLast?_cons_cons] at hx
          exact hlast x hx

theorem groupIns_noop (sep l : List Char) (h : mdsl l ≤ 3) : groupIns sep l = l := by
  induction l with
  | nil => rfl
  | cons c r ih =>
    rw [groupIns_cons]
    have hcond : ¬(isDigitCh c = true ∧ r ≠ [] ∧ (∀ x ∈ r, isDigitCh x = true) ∧
        r.length % 3 = 0) := by
      rintro ⟨hc, hne, hall, hmod⟩
      have hr1 : 1 ≤ r.length := List.length_pos.mpr hne
      have hr3 : 3 ≤ r.length := by omega
      have : mdsl (c :: r) = r.length + 1 := by
        rw [mdsl, if_pos (by simp [hc, List.all_eq_true.mpr hall])]
      omega
    rw [if_neg hcond]
    have hr : mdsl r ≤ 3 := by
      rw [mdsl] at h
      split at h
      · rename_i hcr
        have := mdsl_le_length r
        omega
      · exact h
    rw [ih hr]

theorem groupIns_no_dot (sep l : List Char) (hs : '.' ∉ sep) (hl : '.' ∉ l) :
    '.' ∉ groupIns sep l := by
  induction l with
  | nil => simp [groupIns]
  | cons c r ih =>
    have hc : c ≠ '.' := fun hh => hl (hh ▸ List.mem_cons_self c r)
    have hr : '.' ∉ r := fun hh => hl (List.mem_cons_of_mem c hh)
    rw [groupIns_cons]
    split
    · intro hmem
      rcases List.mem_cons.mp hmem with h2 | h2
      · exact hc h2.symm
      · rcases List.mem_append.mp h2 with h3 | h3
        · exact hs h3
        · exact ih hr h3
    · intro hmem
      rcases List.mem_cons.mp hmem with h2 | h2
      · exact hc h2.symm
      · exact ih hr h2

theorem groupIns_all_digit_suffix (sep : List Char) (hs_ne : sep ≠ [])
    (hs_nd : ∀ c ∈ sep, isDigitCh c = false) :
    ∀ n r, r.length = n → r.all isDigitCh = true → 4 ≤ r.length →
      mdsl (groupIns sep r) = 3 ∧ (groupIns sep r).all isDigitCh = false := by
  have hsep_not_all : sep.all isDigitCh = false := by
    rcases sep with _ | ⟨c, cs⟩
    · exact absurd rfl hs_ne
    · simp only [List.all_cons]
      rw [hs_nd c (List.mem_cons_self c cs)]
      rfl
  have hsep_mdsl : mdsl sep = 0 := mdsl_zero_of_no_digits sep hs_nd
  intro n
  induction n using Nat.strong_induction_on with
  | _ n ih =>
    intro r hlen hall h4
    rcases r with _ | ⟨d, r'⟩
    · simp at h4
    · have hd : isDigitCh d = true := by
        simp only [List.all_cons, Bool.and_eq_true] at hall
        exact hall.1
      have hr'all : r'.all isDigitCh = true := by
        simp only [List.all_cons, Bool.and_eq_true] at hall
        exact hall.2
      have hr'3 : 3 ≤ r'.length := by
        simp only [List.length_cons] at h4
        omega
      have key : ∀ G : List Char, G.all isDigitCh = false → mdsl G = 3 →
          mdsl (d :: (sep ++ G)) = 3 ∧ (d :: (sep ++ G)).all isDigitCh = false ∧
          mdsl (d :: G) = 3 ∧ (d :: G).all isDigitCh = false := by
        intro G hGall hGm
        have h1 : (sep ++ G).all isDigitCh = false := by
          rw [List.all_append, hGall]
          simp
        have h2 : mdsl (sep ++ G) = mdsl G := mdsl_append_not_all sep G hGall
        refine ⟨?_, ?_, ?_, ?_⟩
        · rw [mdsl, if_neg (by simp [h1]), h2, hGm]
        · simp only [List.all_cons, h1]
          simp
        · rw [mdsl, if_neg (by simp [hGall]), hGm]
        · simp only [List.all_cons, hGall]
          simp
      by_cases hmod : r'.length % 3 = 0
      · have hcond : isDigitCh d = true ∧ r' ≠ [] ∧ (∀ x ∈ r', isDigitCh x = true) ∧
            r'.length % 3 = 0 :=
          ⟨hd, fun hcon => by simp [hcon] at hr'3, List.all_eq_true.mp hr'all, hmod⟩
        rw [groupIns_cons, if_pos hcond]
        by_cases h6 : r'.length ≤ 3
        · have h33 : r'.length = 3 := by omega
          rw [groupIns_short sep r' (by omega)]
          have hmd : mdsl (sep ++ r') = 3 := by
            rw [mdsl_append_all sep r' hr'all, hsep_mdsl, h33]
          have hall2 : (sep ++ r').all isDigitCh = false := by
            rw [List.all_append, hsep_not_all]
            rfl
          constructor
          · rw [mdsl, if_neg (by simp [hall2]), hmd]
          · simp only [List.all_cons, hall2]
            simp
        · have hIH := ih r'.length (by simp [hlen.symm]) r' rfl hr'all (by omega)
          obtain ⟨hm3, hnall⟩ := hIH
          have hk := key (groupIns sep r') hnall hm3
          exact ⟨hk.1, hk.2.1⟩
      · have hcond : ¬(isDigitCh d = true ∧ r' ≠ [] ∧ (∀ x ∈ r', isDigitCh x = true) ∧
            r'.length % 3 = 0) := by
          rintro ⟨-, -, -, hcon⟩
          exact hmod hcon
        rw [groupIns_cons, if_neg hcond]
        have hr'4 : 4 ≤ r'.length := by omega
        have hIH := ih r'.length (by simp [hlen.symm]) r' rfl hr'all hr'4
        obtain ⟨hm3, hnall⟩ := hIH
        have hk := key (groupIns sep r') hnall hm3
        exact ⟨hk.2.2.1, hk.2.2.2⟩

theorem groupIns_prefix_digits (sep : List Char) : ∀ p t : List Char,
    t.all isDigitCh = true → (∀ c, p.getLast? = some c → isDigitCh c = false) →
    groupIns sep (p ++ t) = p ++ groupIns sep t := by
  intro p
  induction p with
  | nil => intro t _ _; rfl
  | cons c p' ih =>
    intro t ht hlast
    show groupIns sep (c :: (p' ++ t)) = c :: (p' ++ groupIns sep t)
    rcases p' with _ | ⟨q, qs⟩
    · have hc : isDigitCh c = false := hlast c rfl
      rw [groupIns_cons, if_neg (by rintro ⟨hcon, -⟩; rw [hc] at hcon; cases hcon)]
      simp only [List.nil_append]
    · have hlast' : ∀ x, (q :: qs).getLast? = some x → isDigitCh x = false := by
        intro x hx
        exact hlast x (by rw [List.getLast?_cons_cons]; exact hx)
      have hnd : ((q :: qs) ++ t).all isDigitCh = false := by
        have hgl : (q :: qs).getLast? = some ((q :: qs).getLast (by simp)) :=
          List.getLast?_eq_getLast_of_ne_nil (by simp)
        have hq := hlast' ((q :: qs).getLast (by simp)) hgl
        rw [List.all_append]
        have hmem : (q :: qs).getLast (by simp) ∈ (q :: qs) := List.getLast_mem _
        have : (q :: qs).all isDigitCh = false := by
          rcases hh : (q :: qs).all isDigitCh with _ | _
          · rfl
          · exact absurd (List.all_eq_true.mp hh _ hmem) (by simp [hq])
        rw [this]
        rfl
      rw [groupIns_cons, if_neg ?hcon, ih t ht hlast']
      case hcon =>
        rintro ⟨-, -, hall, -⟩
        rw [List.all_eq_true.mpr hall] at hnd
        cases hnd

theorem groupIns_big_suffix (sep : List Char) (hs_ne : sep ≠ [])
    (hs_nd : ∀ c ∈ sep, isDigitCh c = false) (l : List Char) (h4 : 4 ≤ mdsl l) :
    mdsl (groupIns sep l) = 3 := by
  obtain ⟨p, t, rfl, ht, hlen, hlast⟩ := mdsl_decomp l
  rw [groupIns_prefix_digits sep p t ht hlast]
  obtain ⟨hm3, hnall⟩ := groupIns_all_digit_suffix sep hs_ne hs_nd t.length t rfl ht (by omega)
  rw [mdsl_append_not_all p _ hnall, hm3]

/-- Idempotence of the grouping pass, for separators containing no digits. -/
theorem groupIns_idem (sep : List Char) (hs_nd : ∀ c ∈ sep, isDigitCh c = false)
    (l : List Char) : groupIns sep (groupIns sep l) = groupIns sep l := by
  rcases sep with _ | ⟨c, cs⟩
  · have hid : ∀ m : List Char, groupIns [] m = m := by
      intro m
      induction m with
      | nil => rfl
      | cons x r ih => rw [groupIns_cons]; split <;> simp [ih]
    rw [hid, hid]
  · by_cases h4 : 4 ≤ mdsl l
    · exact groupIns_noop _ _ (by
        rw [groupIns_big_suffix (c :: cs) (by simp) hs_nd l h4])
    · have h1 := groupIns_noop (c :: cs) l (by omega)
      rw [h1]
      exact h1

/-! ### Claim C7 -/

/-- C7 counterexample: with the digit separator `"0"`, re-applying
`formatThousands` re-groups the digits inserted by the first pass
(`"1234567" → "102340567" → "10203400567"`), so idempotence fails. -/
theorem claim_C7_counterexample :
    formatThousands (.str (formatThousands (.num (some ⟨1234567, 1⟩)) "0")) "0" ≠
      formatThousands (.num (some ⟨1234567, 1⟩)) "0" := by
  decide

/-- C7 (amended): re-applying `formatThousands` to its own output with the
same separator is a no-op whenever the separator contains no digit
characters and no decimal point; a separator containing a digit (or a
dot) can be re-grouped by the second pass (see the counterexample). -/
theorem claim_C7_idempotent (v : StrOrNum) (s : String)
    (hnd : ∀ c ∈ s.data, isDigitCh c = false) (hdot : '.' ∉ s.data) :
    formatThousands (.str (formatThousands v s)) s = formatThousands v s := by
  by_cases hs : s.length = 0
  · have h1 : ∀ w : StrOrNum, formatThousands w s = toJsString w := by
      intro w
      unfold formatThousands
      rw [if_pos hs]
    rw [h1, h1]
    rfl
  · by_cases hdm : '.' ∈ (toJsString v).data
    · have h2 : 2 ≤ (splitDot (toJsString v).data).length := splitDot_two_le _ hdm
      rcases hsd : splitDot (toJsString v).data with _ | ⟨a, tl⟩
      · exact absurd hsd (splitDot_ne_nil _)
      rcases tl with _ | ⟨b, rest⟩
      · rw [hsd] at h2
        simp at h2
      have hamem : a ∈ splitDot (toJsString v).data := hsd ▸ List.mem_cons_self a _
      have hbmem : b ∈ splitDot (toJsString v).data :=
        hsd ▸ List.mem_cons_of_mem a (List.mem_cons_self b rest)
      have hadot : '.' ∉ a := splitDot_mem_no_dot _ a hamem
      have hbdot : '.' ∉ b := splitDot_mem_no_dot _ b hbmem
      have hGadot : '.' ∉ groupIns s.data a := groupIns_no_dot s.data a hdot hadot
      have hO : formatThousands v s = ⟨groupIns s.data a ++ '.' :: b⟩ := by
        unfold formatThousands
        rw [if_neg hs, if_pos hdm, hsd]
      rw [hO]
      unfold formatThousands
      rw [if_neg hs]
      have hmem2 : '.' ∈ (toJsString (.str (⟨groupIns s.data a ++ '.' :: b⟩ : String))).data :=
        List.mem_append_right _ (List.mem_cons_self '.' b)
      rw [if_pos hmem2]
      have hsd2 : splitDot (toJsString
          (.str (⟨groupIns s.data a ++ '.' :: b⟩ : String))).data =
          (groupIns s.data a) :: b :: [] := by
        show splitDot (groupIns s.data a ++ '.' :: b) = _
        rw [splitDot_append, splitDot_no_dot _ hGadot, splitDot_no_dot b hbdot]
        rfl
      rw [hsd2]
      show (⟨groupIns s.data (groupIns s.data a) ++ '.' :: b⟩ : String) = _
      rw [groupIns_idem s.data hnd a]
    · have hO : formatThousands v s = ⟨groupIns s.data (toJsString v).data⟩ := by
        unfold formatThousands
        rw [if_neg hs, if_neg hdm]
      rw [hO]
      unfold formatThousands
      rw [if_neg hs]
      have hOdot : '.' ∉ (toJsString (.str (⟨groupIns s.data (toJsString v).data⟩ :
          String))).data := groupIns_no_dot s.data _ hdot hdm
      rw [if_neg hOdot]
      show (⟨groupIns s.data (groupIns s.data (toJsString v).data)⟩ : String) = _
      rw [groupIns_idem s.data hnd]

/-- C7 witness: idempotence at a concrete value and separator. -/
theorem claim_C7_witness :
    formatThousands (.str (formatThousands (.num (some ⟨1234567, 1⟩)) ",")) "," =
      formatThousands (.num (some ⟨1234567, 1⟩)) "," :=
  claim_C7_idempotent (.num (some ⟨1234567, 1⟩)) "," (by decide) (by decide)

/-! ### Rendering a natural-number threshold -/

theorem natToDec_mul_pow10 (s z : ℕ) (hs : s ≠ 0) :
    natToDec (s * 10 ^ z) = natToDec s ++ List.replicate z '0' := by
  have hmul : s * 10 ^ z = 10 ^ z * s := by ring
  have hne : s * 10 ^ z ≠ 0 := by positivity
  rw [natToDec_eq _ hne, hmul,
    Nat.digits_base_pow_mul (by norm_num) (Nat.pos_of_ne_zero hs), natToDec_eq s hs,
    List.map_append, List.reverse_append]
  congr 1
  rw [List.map_replicate, List.reverse_replicate]
  congr 1

theorem stripAux_spec : ∀ fuel n, n ≤ fuel → n ≠ 0 →
    (n / 10 ^ stripAux fuel n) * 10 ^ stripAux fuel n = n ∧
      ¬ 10 ∣ n / 10 ^ stripAux fuel n := by
  intro fuel
  induction fuel with
  | zero => intro n h hn; omega
  | succ f ih =>
    intro n h hn
    rw [stripAux]
    by_cases hc : (n != 0 && n % 10 == 0) = true
    · rw [if_pos hc]
      simp only [Bool.and_eq_true, bne_iff_ne, beq_iff_eq] at hc
      have hdvd : 10 ∣ n := Nat.dvd_of_mod_eq_zero hc.2
      have hge : 10 ≤ n := Nat.le_of_dvd (Nat.pos_of_ne_zero hn) hdvd
      have hn10 : n / 10 ≠ 0 := by
        intro hcon
        have := Nat.div_add_mod n 10
        omega
      have hle : n / 10 ≤ f := by
        have := Nat.div_lt_self (Nat.pos_of_ne_zero hn) (show 1 < 10 by norm_num)
        omega
      obtain ⟨h1, h2⟩ := ih (n / 10) hle hn10
      have hrw : n / 10 ^ (stripAux f (n / 10) + 1) = n / 10 / 10 ^ stripAux f (n / 10) := by
        rw [Nat.div_div_eq_div_mul, pow_succ]
        ring_nf
      have hn_eq : (n / 10) * 10 = n := Nat.div_mul_cancel hdvd
      constructor
      · rw [hrw]
        calc (n / 10 / 10 ^ stripAux f (n / 10)) * 10 ^ (stripAux f (n / 10) + 1)
            = ((n / 10 / 10 ^ stripAux f (n / 10)) * 10 ^ stripAux f (n / 10)) * 10 := by ring
          _ = (n / 10) * 10 := by rw [h1]
          _ = n := hn_eq
      · rw [hrw]
        exact h2
    · rw [if_neg hc]
      simp only [Bool.and_eq_true, bne_iff_ne, beq_iff_eq] at hc
      have hmod : n % 10 ≠ 0 := by
        intro hcon
        exact hc ⟨hn, hcon⟩
      simp only [pow_zero, Nat.div_one, mul_one]
      refine ⟨trivial, ?_⟩
      intro hdvd
      rcases hdvd with ⟨k, rfl⟩
      omega

theorem stripCount_spec (n : ℕ) (hn : n ≠ 0) :
    (n / 10 ^ stripCount n) * 10 ^ stripCount n = n ∧ ¬ 10 ∣ n / 10 ^ stripCount n :=
  stripAux_spec n n (le_refl n) hn

/-- `jsNumToString` renders an integral value below `10^21` as its plain
decimal digit string. -/
theorem jsNumToString_nat (t : ℕ) (ht : t < 10 ^ 21) :
    jsNumToString ⟨(t : ℤ), 1⟩ = ⟨natToDec t⟩ := by
  by_cases ht0 : t = 0
  · subst ht0
    decide
  · unfold jsNumToString
    rw [if_neg (by norm_num), if_neg (by simpa using ht0)]
    have hg : myGcd t 1 = 1 := by rw [myGcd_eq]; simp
    have h2 : myPmult 2 1 = 0 := rfl
    have h5 : myPmult 5 1 = 0 := rfl
    simp only [Int.natAbs_ofNat, hg, Nat.div_one, h2, h5, pow_zero, mul_one, max_self,
      Nat.div_self (by norm_num : (0:ℕ) < 1)]
    rw [if_pos trivial]
    obtain ⟨hs1, hs2⟩ := stripCount_spec t ht0
    set z := stripCount t with hz
    set s := t / 10 ^ z with hsdef
    have hsne : s ≠ 0 := by
      intro hcon
      rw [hcon, zero_mul] at hs1
      exact ht0 hs1.symm
    have hdec : natToDec t = natToDec s ++ List.replicate z '0' := by
      conv_lhs => rw [← hs1]
      exact natToDec_mul_pow10 s z hsne
    have hklen : (natToDec s).length + z = (natToDec t).length := by
      rw [hdec, List.length_append, List.length_replicate]
    have h21 : (natToDec t).length ≤ 21 := natToDec_length_le t 21 (by norm_num) ht
    have hneg : ¬((t : ℤ) < 0) := by omega
    rw [if_neg hneg]
    simp only [Nat.cast_zero, sub_zero, List.nil_append]
    unfold renderPosNum
    have hc1 : ((natToDec s).length : ℤ) ≤ ((natToDec s).length : ℤ) + (z : ℤ) ∧
        ((natToDec s).length : ℤ) + (z : ℤ) ≤ 21 := by
      constructor
      · omega
      · omega
    rw [if_pos hc1]
    have hzz : (((natToDec s).length : ℤ) + (z : ℤ) - (natToDec s).length).toNat = z := by
      omega
    congr 1
    rw [hzz, hdec]

/-! ### quantTest / fold pattern lemmas -/

theorem take_takeWhile_length (p : Char → Bool) : ∀ l : List Char,
    l.take (l.takeWhile p).length = l.takeWhile p := by
  intro l
  induction l with
  | nil => rfl
  | cons c r ih =>
    rw [List.takeWhile_cons]
    by_cases hc : p c = true
    · rw [if_pos hc, List.length_cons, List.take_succ_cons, ih]
    · rw [if_neg hc]
      rfl

theorem drop_takeWhile_length (p : Char → Bool) : ∀ l : List Char,
    l.drop (l.takeWhile p).length = l.dropWhile p := by
  intro l
  induction l with
  | nil => rfl
  | cons c r ih =>
    rw [List.takeWhile_cons, List.dropWhile_cons]
    by_cases hc : p c = true
    · rw [if_pos hc, if_pos hc, List.length_cons, List.drop_succ_cons, ih]
    · rw [if_neg hc, if_neg hc]
      rfl

theorem nz_beq_zero_false (d : Char) (h : isNzDigitCh d = true) : (d == '0') = false := by
  rcases hh : d == '0'
  · rfl
  · have hd : d = '0' := by simpa using hh
    subst hd
    cases h

theorem nz_isDigit (d : Char) (h : isNzDigitCh d = true) : isDigitCh d = true := by
  unfold isNzDigitCh at h
  unfold isDigitCh
  simp only [Bool.and_eq_true, decide_eq_true_eq] at h ⊢
  exact ⟨le_trans (by decide) h.1, h.2⟩

theorem takeWhile_replicate_cons (z : ℕ) (d : Char) (ds : List Char)
    (hd : (d == '0') = false) :
    (List.replicate z '0' ++ d :: ds).takeWhile (fun c => c == '0') = List.replicate z '0' := by
  induction z with
  | zero => simp [List.takeWhile_cons, hd]
  | succ m ih =>
    rw [List.replicate_succ, List.cons_append, List.takeWhile_cons]
    simp only [beq_self_eq_true, if_true]
    rw [ih]

theorem quantTailOk_iff (n : ℕ) (B : List Char) :
    quantTailOk n B = true ↔ ∃ z d ds, B = List.replicate z '0' ++ d :: ds ∧ n ≤ z ∧
      isNzDigitCh d = true ∧ ds.all isDigitCh = true := by
  constructor
  · intro h
    unfold quantTailOk at h
    simp only [Bool.and_eq_true, decide_eq_true_eq] at h
    obtain ⟨hz, hmatch⟩ := h
    rcases hdrop : B.drop ((B.takeWhile (fun c => c == '0')).length) with _ | ⟨d, ds⟩
    · rw [hdrop] at hmatch
      cases hmatch
    · rw [hdrop] at hmatch
      simp only [Bool.and_eq_true] at hmatch
      have hB : B = B.takeWhile (fun c => c == '0') ++ d :: ds := by
        conv_lhs => rw [← List.take_append_drop ((B.takeWhile (fun c => c == '0')).length) B]
        rw [take_takeWhile_length, hdrop]
      have hT : B.takeWhile (fun c => c == '0') =
          List.replicate ((B.takeWhile (fun c => c == '0')).length) '0' := by
        rw [List.eq_replicate_iff]
        refine ⟨rfl, fun b hb => ?_⟩
        simpa using List.mem_takeWhile_imp hb
      exact ⟨(B.takeWhile (fun c => c == '0')).length, d, ds,
        hB.trans (congrArg (· ++ d :: ds) hT), hz, hmatch.1, hmatch.2⟩
  · rintro ⟨z, d, ds, rfl, hz, hd, hds⟩
    unfold quantTailOk
    have hT := takeWhile_replicate_cons z d ds (nz_beq_zero_false d hd)
    rw [hT, List.length_replicate]
    have hdrop : (List.replicate z '0' ++ d :: ds).drop z = d :: ds :=
      List.drop_left' (List.length_replicate z '0')
    rw [hdrop]
    simp [hz, hd, hds]

theorem quantTailOk_all_digits (n : ℕ) (B : List Char) (h : quantTailOk n B = true) :
    B.all isDigitCh = true := by
  obtain ⟨z, d, ds, rfl, -, hd, hds⟩ := (quantTailOk_iff n B).mp h
  rw [List.all_append, Bool.and_eq_true]
  constructor
  · rw [List.all_eq_true]
    intro x hx
    rw [List.eq_of_mem_replicate hx]
    rfl
  · simp only [List.all_cons, Bool.and_eq_true]
    exact ⟨nz_isDigit d hd, hds⟩

theorem quantTest_iff (n : ℕ) : ∀ l, quantTest n l = true ↔
    ∃ A B, l = A ++ '.' :: B ∧ quantTailOk n B = true := by
  intro l
  induction l with
  | nil =>
    constructor
    · intro h; cases h
    · rintro ⟨A, B, hAB, -⟩
      rcases A with _ | _ <;> simp at hAB
  | cons c r ih =>
    rw [quantTest]
    constructor
    · intro h
      rcases (Bool.or_eq_true _ _).mp h with h1 | h2
      · by_cases hc : c = '.'
        · rw [if_pos hc] at h1
          exact ⟨[], r, by simp [hc], h1⟩
        · rw [if_neg hc] at h1
          cases h1
      · obtain ⟨A, B, hAB, hOk⟩ := ih.mp h2
        exact ⟨c :: A, B, by rw [hAB]; rfl, hOk⟩
    · rintro ⟨A, B, hAB, hOk⟩
      rcases A with _ | ⟨a, A'⟩
      · simp only [List.nil_append, List.cons.injEq] at hAB
        rw [if_pos hAB.1, hAB.2, hOk]
        rfl
      · simp only [List.cons_append, List.cons.injEq] at hAB
        rw [ih.mpr ⟨A', B, hAB.2, hOk⟩]
        simp

theorem quantTest_mem_dot (n : ℕ) (l : List Char) (h : quantTest n l = true) : '.' ∈ l := by
  obtain ⟨A, B, rfl, -⟩ := (quantTest_iff n l).mp h
  exact List.mem_append_right A (List.mem_cons_self '.' B)

theorem litHere_mem_dot (X l : List Char) (h : litHere X l = true) : '.' ∈ l := by
  rcases l with _ | ⟨c1, _ | ⟨c2, _ | ⟨c3, r⟩⟩⟩
  · cases h
  · simp [litHere] at h
  · simp [litHere] at h
  · have h1 : (c1 == '.') = true := by
      simp only [litHere, Bool.and_eq_true] at h
      simpa using h.1.1.1.1
    have h2 : c1 = '.' := by simpa using h1
    rw [h2]
    exact List.mem_cons_self '.' _

theorem litTest_mem_dot (X : List Char) : ∀ l, litTest X l = true → '.' ∈ l := by
  intro l
  induction l with
  | nil => intro h; cases h
  | cons c r ih =>
    intro h
    rw [litTest] at h
    rcases (Bool.or_eq_true _ _).mp h with h1 | h2
    · exact litHere_mem_dot X _ h1
    · exact List.mem_cons_of_mem c (ih h2)

/-- The fold branch of `formatFoldDecimal`: splitting at the last dot,
replacing the leading zero run of the final segment. -/
theorem fold_branch_eq (A B v2 : List Char) (hB : '.' ∉ B) :
    (splitDot (A ++ '.' :: B)).getLastD [] = B ∧
    joinWith ['.'] ((splitDot (A ++ '.' :: B)).dropLast ++ [v2]) = A ++ '.' :: v2 := by
  rw [splitDot_append, splitDot_no_dot B hB]
  constructor
  · exact List.getLastD_concat _ _ _
  · rw [List.dropLast_concat, joinWith_append_singleton _ _ _ (splitDot_ne_nil A),
      joinWith_dot_splitDot]
    simp

/-- The shape hypothesis of the zero-run fold: the stringified value ends
with a final dot-separated segment made of at least `t` zeros, a nonzero
digit, and digits. -/
def foldShape (t : ℕ) (l : List Char) : Prop :=
  ∃ A z d ds, l = A ++ '.' :: (List.replicate z '0' ++ d :: ds) ∧ t ≤ z ∧
    isNzDigitCh d = true ∧ ds.all isDigitCh = true

theorem quantTest_iff_foldShape (t : ℕ) (l : List Char) :
    quantTest t l = true ↔ foldShape t l := by
  rw [quantTest_iff]
  constructor
  · rintro ⟨A, B, rfl, hOk⟩
    obtain ⟨z, d, ds, rfl, hz, hd, hds⟩ := (quantTailOk_iff t B).mp hOk
    exact ⟨A, z, d, ds, rfl, hz, hd, hds⟩
  · rintro ⟨A, z, d, ds, rfl, hz, hd, hds⟩
    exact ⟨A, _, rfl, (quantTailOk_iff t _).mpr ⟨z, d, ds, rfl, hz, hd, hds⟩⟩

/-- A replacement template without a dollar character is spliced
literally by `GetSubstitution`. -/
theorem expandRepl_no_dollar (m p q : List Char) : ∀ l : List Char,
    dollarCh ∉ l → expandRepl m p q l = l := by
  intro l
  induction l with
  | nil => intro _; rfl
  | cons c r ih =>
    intro h
    have hc : ¬(c = dollarCh) := fun hh => h (hh ▸ List.mem_cons_self c r)
    rcases r with _ | ⟨c2, r2⟩
    · rfl
    · rw [expandRepl, if_neg hc, ih (fun hm => h (List.mem_cons_of_mem c hm))]

/-! ### Claim C5 -/

/-- C5 counterexample: the regex keys on the *last* dot of the string.
For the string `"1.2.0005"` with threshold 3 the fractional part
(everything after the decimal point, `"2.0005"`) does not consist of a
zero run followed by digits, so the claim demands the value unchanged,
but the code folds the final segment. -/
theorem claim_C5_counterexample :
    formatFoldDecimalForCurlyBracket (.str "1.2.0005") (some ⟨3, 1⟩) ≠ "1.2.0005" := by
  decide

/-- C5 (amended): for every value, every renderCount function, and every
threshold that is a nonnegative integer below `10^21` (so that its
decimal rendering forms a valid `{t,}` quantifier), `formatFoldDecimal`
stringifies the value; if the segment after the *last* decimal point does
not consist of at least `t` zeros followed by a nonzero digit and digits
to the end, the string is returned unchanged; otherwise the leading zero
run of that final segment is replaced by the `GetSubstitution` expansion
of the replacement string `"0" ++ format z` (where `z` is the run
length, the matched text is the zero run and the text after the match is
the nonzero remainder), everything before the last dot and the dot
itself being preserved; when `format z` contains no dollar character the
expansion is the literal splice `"0" ++ format z`. -/
theorem claim_C5_fold :
    (∀ (value : StrOrNum) (t : ℕ) (format : ℕ → String), t < 10 ^ 21 →
      ¬ foldShape t (toJsString value).data →
      formatFoldDecimal value (some ⟨(t : ℤ), 1⟩) format = toJsString value) ∧
    (∀ (value : StrOrNum) (t : ℕ) (format : ℕ → String) (A : List Char) (z : ℕ)
      (d : Char) (ds : List Char), t < 10 ^ 21 →
      (toJsString value).data = A ++ '.' :: (List.replicate z '0' ++ d :: ds) →
      t ≤ z → isNzDigitCh d = true → ds.all isDigitCh = true →
      formatFoldDecimal value (some ⟨(t : ℤ), 1⟩) format =
        ⟨A ++ '.' :: (expandRepl (List.replicate z '0') [] (d :: ds)
          ('0' :: (format z).data) ++ d :: ds)⟩) ∧
    (∀ (value : StrOrNum) (t : ℕ) (format : ℕ → String) (A : List Char) (z : ℕ)
      (d : Char) (ds : List Char), t < 10 ^ 21 →
      (toJsString value).data = A ++ '.' :: (List.replicate z '0' ++ d :: ds) →
      t ≤ z → isNzDigitCh d = true → ds.all isDigitCh = true →
      dollarCh ∉ (format z).data →
      formatFoldDecimal value (some ⟨(t : ℤ), 1⟩) format =
        ⟨A ++ '.' :: '0' :: ((format z).data ++ d :: ds)⟩) := by
  have hsetup : ∀ (value : StrOrNum) (t : ℕ) (format : ℕ → String), t < 10 ^ 21 →
      formatFoldDecimal value (some ⟨(t : ℤ), 1⟩) format =
        (if quantTest t (toJsString value).data then
          ⟨joinWith ['.'] ((splitDot (toJsString value).data).dropLast ++
            [expandRepl
              (((splitDot (toJsString value).data).getLastD []).take
                (leadZeros ((splitDot (toJsString value).data).getLastD [])))
              []
              (((splitDot (toJsString value).data).getLastD []).drop
                (leadZeros ((splitDot (toJsString value).data).getLastD [])))
              ('0' :: (format (leadZeros
                ((splitDot (toJsString value).data).getLastD []))).data) ++
              ((splitDot (toJsString value).data).getLastD []).drop
                (leadZeros ((splitDot (toJsString value).data).getLastD []))])⟩
        else toJsString value) := by
    intro value t format ht
    unfold formatFoldDecimal
    have h1 : jsNumOptToStr (some ⟨(t : ℤ), 1⟩) = ⟨natToDec t⟩ := jsNumToString_nat t ht
    rw [h1]
    dsimp only
    have hguard : natToDec t ≠ [] ∧ (natToDec t).all isDigitCh = true :=
      ⟨natToDec_ne_nil t, natToDec_all_digits t⟩
    rw [if_pos hguard, ofDigitsCh_natToDec t]
  have hmain : ∀ (value : StrOrNum) (t : ℕ) (format : ℕ → String) (A : List Char) (z : ℕ)
      (d : Char) (ds : List Char), t < 10 ^ 21 →
      (toJsString value).data = A ++ '.' :: (List.replicate z '0' ++ d :: ds) →
      t ≤ z → isNzDigitCh d = true → ds.all isDigitCh = true →
      formatFoldDecimal value (some ⟨(t : ℤ), 1⟩) format =
        ⟨A ++ '.' :: (expandRepl (List.replicate z '0') [] (d :: ds)
          ('0' :: (format z).data) ++ d :: ds)⟩ := by
    intro value t format A z d ds ht hdecomp hz hd hds
    rw [hsetup value t format ht]
    have hq : quantTest t (toJsString value).data = true := by
      rw [quantTest_iff_foldShape]
      exact ⟨A, z, d, ds, hdecomp, hz, hd, hds⟩
    rw [hq, if_pos rfl]
    have hBdot : '.' ∉ List.replicate z '0' ++ d :: ds := by
      have hall : (List.replicate z '0' ++ d :: ds).all isDigitCh = true :=
        quantTailOk_all_digits t _ ((quantTailOk_iff t _).mpr ⟨z, d, ds, rfl, hz, hd, hds⟩)
      intro hmem
      have := List.all_eq_true.mp hall '.' hmem
      cases this
    obtain ⟨hlast, hjoin⟩ := fold_branch_eq A (List.replicate z '0' ++ d :: ds)
      (expandRepl
        ((List.replicate z '0' ++ d :: ds).take
          (leadZeros (List.replicate z '0' ++ d :: ds)))
        []
        ((List.replicate z '0' ++ d :: ds).drop
          (leadZeros (List.replicate z '0' ++ d :: ds)))
        ('0' :: (format (leadZeros (List.replicate z '0' ++ d :: ds))).data) ++
        (List.replicate z '0' ++ d :: ds).drop
          (leadZeros (List.replicate z '0' ++ d :: ds)))
      hBdot
    rw [hdecomp, hlast]
    have hlz : leadZeros (List.replicate z '0' ++ d :: ds) = z := by
      unfold leadZeros
      rw [takeWhile_replicate_cons z d ds (nz_beq_zero_false d hd), List.length_replicate]
    rw [hlz] at hjoin ⊢
    rw [List.drop_left' (List.length_replicate z '0')] at hjoin ⊢
    rw [List.take_left' (List.length_replicate z '0')] at hjoin ⊢
    rw [hjoin]
  refine ⟨?_, hmain, ?_⟩
  · intro value t format ht hshape
    rw [hsetup value t format ht]
    have hq : quantTest t (toJsString value).data = false := by
      rcases hh : quantTest t (toJsString value).data
      · rfl
      · exact absurd ((quantTest_iff_foldShape t _).mp hh) hshape
    rw [hq]
    rfl
  · intro value t format A z d ds ht hdecomp hz hd hds hnd
    have hnot : dollarCh ∉ ('0' :: (format z).data : List Char) := by
      intro hm
      rcases List.mem_cons.mp hm with h | h
      · exact absurd h (by decide)
      · exact hnd h
    rw [hmain value t format A z d ds ht hdecomp hz hd hds,
      expandRepl_no_dollar (List.replicate z '0') [] (d :: ds) _ hnot]
    rfl

/-- C5 witness: the amended fold statement applied at concrete inputs
(both the unchanged branch and the dollar-free folding branch). -/
theorem claim_C5_witness :
    formatFoldDecimal (.str "0.00123") (some ⟨(4 : ℤ), 1⟩)
        (fun count => ⟨lbraceCh :: (natToDec count ++ [rbraceCh])⟩) = "0.00123" ∧
    formatFoldDecimal (.str "0.0000000123") (some ⟨(4 : ℤ), 1⟩)
        (fun count => ⟨lbraceCh :: (natToDec count ++ [rbraceCh])⟩) =
      ⟨['0'] ++ '.' :: '0' :: ((⟨lbraceCh :: (natToDec 7 ++ [rbraceCh])⟩ :
        String).data ++ '1' :: ['2', '3'])⟩ := by
  constructor
  · exact claim_C5_fold.1 (.str "0.00123") 4 _ (by norm_num) (by
      intro hshape
      have := (quantTest_iff_foldShape 4 (toJsString (.str "0.00123")).data).mpr hshape
      revert this
      decide)
  · exact claim_C5_fold.2.2 (.str "0.0000000123") 4 _ ['0'] 7 '1' ['2', '3']
      (by norm_num) (by decide) (by norm_num) (by decide) (by decide) (by decide)

/-! ### Claim C2 -/

/-- C2 counterexample: the number `0.0000000123` stringifies (per JS
Number::toString) to `"1.23e-8"`, so the fold never fires on the number
input; and even on the string input the replacement keeps the leading
`"0"` of the zero run (`` `0${format(count)}` ``), giving `"0.0{7}123"`,
never `"0.{7}123"`. -/
theorem claim_C2_counterexample :
    formatFoldDecimalForCurlyBracket (.num (some ⟨123, 10 ^ 10⟩)) (some ⟨4, 1⟩) = "1.23e-8" ∧
    formatFoldDecimalForCurlyBracket (.str "0.0000000123") (some ⟨4, 1⟩) ≠ "0.{7}123" := by
  constructor
  · decide
  · decide

/-- C2 (amended): applied to the *string* `"0.0000000123"` with threshold
4, the curly-bracket policy returns `"0.0{7}123"` and the subscript
policy returns `"0.0₇123"` (the zero run is replaced by `"0"` followed by
the rendered count); applied to the number `0.0000000123` the value
stringifies to `"1.23e-8"` and is returned unchanged; for a value whose
fractional zero run is shorter than the threshold (run of 2 with
threshold 4) both policies return the stringified value unchanged. -/
theorem claim_C2_fold_examples :
    formatFoldDecimalForCurlyBracket (.str "0.0000000123") (some ⟨4, 1⟩) = "0.0{7}123" ∧
    formatFoldDecimalForSubscript (.str "0.0000000123") (some ⟨4, 1⟩) = "0.0₇123" ∧
    formatFoldDecimalForCurlyBracket (.num (some ⟨123, 10 ^ 5⟩)) (some ⟨4, 1⟩) = "0.00123" ∧
    formatFoldDecimalForSubscript (.num (some ⟨123, 10 ^ 5⟩)) (some ⟨4, 1⟩) = "0.00123" := by
  refine ⟨?_, ?_, ?_, ?_⟩
  · decide
  · decide
  · decide
  · decide

/-! ### Claim C3 -/

theorem last_dot_decomp (vl : List Char) (hdm : '.' ∈ vl) :
    ∃ A B, vl = A ++ '.' :: B ∧ '.' ∉ B := by
  have hne := splitDot_ne_nil vl
  have h2 := splitDot_two_le vl hdm
  obtain ⟨init, last, hsplit⟩ : ∃ i l, splitDot vl = i ++ [l] :=
    ⟨(splitDot vl).dropLast, (splitDot vl).getLast hne,
      (List.dropLast_append_getLast hne).symm⟩
  have hinit : init ≠ [] := by
    intro hcon
    rw [hcon] at hsplit
    rw [hsplit] at h2
    simp at h2
  have hBdot : '.' ∉ last := splitDot_mem_no_dot vl last
    (hsplit ▸ List.mem_append_right init (List.mem_cons_self _ _))
  refine ⟨joinWith ['.'] init, last, ?_, hBdot⟩
  conv_lhs => rw [← joinWith_dot_splitDot vl]
  rw [hsplit, joinWith_append_singleton _ _ _ hinit]
  simp

/-- The fold either returns the stringified value unchanged or replaces
the zero run of its final dot segment by the expanded replacement; used
for the totality claim. -/
theorem formatFoldDecimal_total (v : StrOrNum) (th : Option JNum) (f : ℕ → String) :
    formatFoldDecimal v th f = toJsString v ∨
      ∃ A B, (toJsString v).data = A ++ '.' :: B ∧ '.' ∉ B ∧
        formatFoldDecimal v th f =
          ⟨A ++ '.' :: (expandRepl (B.take (leadZeros B)) [] (B.drop (leadZeros B))
            ('0' :: (f (leadZeros B)).data) ++ B.drop (leadZeros B))⟩ := by
  have main : ∀ vl : List Char, '.' ∈ vl →
      ∃ A B, vl = A ++ '.' :: B ∧ '.' ∉ B ∧
        (⟨joinWith ['.'] ((splitDot vl).dropLast ++
          [expandRepl
            (((splitDot vl).getLastD []).take (leadZeros ((splitDot vl).getLastD [])))
            []
            (((splitDot vl).getLastD []).drop (leadZeros ((splitDot vl).getLastD [])))
            ('0' :: (f (leadZeros ((splitDot vl).getLastD []))).data) ++
            ((splitDot vl).getLastD []).drop (leadZeros ((splitDot vl).getLastD []))])⟩ :
              String) =
          ⟨A ++ '.' :: (expandRepl (B.take (leadZeros B)) [] (B.drop (leadZeros B))
            ('0' :: (f (leadZeros B)).data) ++ B.drop (leadZeros B))⟩ := by
    intro vl hdm
    obtain ⟨A, B, hAB, hBdot⟩ := last_dot_decomp vl hdm
    subst hAB
    obtain ⟨hlast, hjoin⟩ := fold_branch_eq A B
      (expandRepl
        (((splitDot (A ++ '.' :: B)).getLastD []).take
          (leadZeros ((splitDot (A ++ '.' :: B)).getLastD [])))
        []
        (((splitDot (A ++ '.' :: B)).getLastD []).drop
          (leadZeros ((splitDot (A ++ '.' :: B)).getLastD [])))
        ('0' :: (f (leadZeros ((splitDot (A ++ '.' :: B)).getLastD []))).data) ++
        ((splitDot (A ++ '.' :: B)).getLastD []).drop
          (leadZeros ((splitDot (A ++ '.' :: B)).getLastD [])))
      hBdot
    refine ⟨A, B, rfl, hBdot, ?_⟩
    rw [hjoin, hlast]
  unfold formatFoldDecimal
  dsimp only
  by_cases hg : ((jsNumOptToStr th).data ≠ [] ∧ (jsNumOptToStr th).data.all isDigitCh = true)
  · rw [if_pos hg]
    rcases hq : quantTest (ofDigitsCh (jsNumOptToStr th).data) (toJsString v).data
    · left
      simp
    · right
      obtain ⟨A, B, hAB, hBdot, heq⟩ := main (toJsString v).data
        (quantTest_mem_dot _ _ hq)
      exact ⟨A, B, hAB, hBdot, by simpa using heq⟩
  · rw [if_neg hg]
    rcases hq : litTest (jsNumOptToStr th).data (toJsString v).data
    · left
      simp
    · right
      obtain ⟨A, B, hAB, hBdot, heq⟩ := main (toJsString v).data
        (litTest_mem_dot _ _ hq)
      exact ⟨A, B, hAB, hBdot, by simpa using heq⟩

/-- C3: every operation is total and degrades to its documented fallback:
invalid data gives the coalesced default, a `NaN` coercion returns the
original string form, the empty separator is a no-op, and
`formatFoldDecimal` — for *every* threshold, `NaN` included (the invalid
`{t,}` quantifier falls back, per Annex B, to literal braces rather than
throwing), and for *every* renderCount function (dollar sequences in the
replacement string are expanded, never an error) — returns either the
stringified value unchanged or the zero-run fold of its final dot
segment. -/
theorem claim_C3_total :
    (∀ (data : Value) (key : String) (dflt : Value), isValidV data = false →
      formatValue data key dflt = coalesceDflt dflt) ∧
    (∀ (v : StrOrNum) (p : Option ℕ), toNumber v = none →
      formatPrecision v p = toJsString v) ∧
    (∀ v : StrOrNum, toNumber v = none → formatBigNumber v = toJsString v) ∧
    (∀ v : StrOrNum, formatThousands v "" = toJsString v) ∧
    (∀ (v : StrOrNum) (th : Option JNum) (f : ℕ → String),
      formatFoldDecimal v th f = toJsString v ∨
        ∃ A B, (toJsString v).data = A ++ '.' :: B ∧ '.' ∉ B ∧
          formatFoldDecimal v th f =
            ⟨A ++ '.' :: (expandRepl (B.take (leadZeros B)) [] (B.drop (leadZeros B))
              ('0' :: (f (leadZeros B)).data) ++ B.drop (leadZeros B))⟩) := by
  refine ⟨?_, ?_, ?_, ?_, formatFoldDecimal_total⟩
  · intro data key dflt h
    unfold formatValue
    rw [if_neg (by simp [h])]
  · intro v p h
    unfold formatPrecision
    rw [h]
  · intro v h
    unfold formatBigNumber
    rw [h]
  · intro v
    unfold formatThousands
    dsimp only
    rw [if_pos (show ("" : String).length = 0 from rfl)]

/-- C3 witness: the fallback clauses at concrete inputs. -/
theorem claim_C3_witness :
    formatValue .vnull "a.b" .undef = coalesceDflt .undef ∧
    formatPrecision (.str "abc") none = toJsString (.str "abc") ∧
    formatBigNumber (.str "abc") = toJsString (.str "abc") := by
  refine ⟨claim_C3_total.1 .vnull "a.b" .undef rfl,
    claim_C3_total.2.1 (.str "abc") none (by decide),
    claim_C3_total.2.2.1 (.str "abc") (by decide)⟩

/-! ### Parsing the toFixed output (claim C4) -/

theorem ws_not_digit (c : Char) (h : isWsCh c = true) : isDigitCh c = false := by
  unfold isWsCh at h
  have hm : c ∈ wsChars := of_decide_eq_true h
  fin_cases hm <;> rfl

theorem digit_not_ws (c : Char) (h : isDigitCh c = true) : isWsCh c = false := by
  rcases hw : isWsCh c
  · rfl
  · rw [ws_not_digit c hw] at h
    cases h

theorem digit_ne_plus (c : Char) (h : isDigitCh c = true) : c ≠ '+' := by
  intro hc
  rw [hc] at h
  cases h

theorem digit_ne_minus (c : Char) (h : isDigitCh c = true) : c ≠ '-' := by
  intro hc
  rw [hc] at h
  cases h

theorem radixMark_digit (y : Char) (l : List Char) (hy : isDigitCh y = true) :
    radixMark (y :: l) = none := by
  simp only [radixMark]
  have h1 : ¬(y = 'x' ∨ y = 'X') := by rintro (rfl | rfl) <;> exact absurd hy (by decide)
  have h2 : ¬(y = 'o' ∨ y = 'O') := by rintro (rfl | rfl) <;> exact absurd hy (by decide)
  have h3 : ¬(y = 'b' ∨ y = 'B') := by rintro (rfl | rfl) <;> exact absurd hy (by decide)
  rw [if_neg h1, if_neg h2, if_neg h3]

theorem dropWhile_all_false (p : Char → Bool) : ∀ l : List Char,
    (∀ x ∈ l, p x = false) → l.dropWhile p = l := by
  intro l h
  cases l with
  | nil => rfl
  | cons c r =>
    rw [List.dropWhile_cons, if_neg (by simp [h c (List.mem_cons_self c r)])]

theorem trimCh_no_ws (l : List Char) (h : ∀ c ∈ l, isWsCh c = false) : trimCh l = l := by
  unfold trimCh
  rw [dropWhile_all_false _ l h, dropWhile_all_false _ l.reverse
    (fun c hc => h c (List.mem_reverse.mp hc)), List.reverse_reverse]

/-- On a digit string with a decimal point `ToNumber` dispatches to the
decimal-literal parser: no whitespace to trim, no sign, and no radix
marker after a leading zero. -/
theorem jsStringToNum_dot_digits (ipp fpp : List Char) (hipne : ipp ≠ [])
    (hipd : ∀ c ∈ ipp, isDigitCh c = true) (hfpd : ∀ c ∈ fpp, isDigitCh c = true) :
    jsStringToNum ⟨ipp ++ '.' :: fpp⟩ = parseDecBody (ipp ++ '.' :: fpp) := by
  unfold jsStringToNum
  have hallnw : ∀ c ∈ ipp ++ '.' :: fpp, isWsCh c = false := by
    intro c hc
    rcases List.mem_append.mp hc with h1 | h1
    · exact digit_not_ws c (hipd c h1)
    · rcases List.mem_cons.mp h1 with h2 | h2
      · rw [h2]
        rfl
      · exact digit_not_ws c (hfpd c h2)
  rw [show trimCh ((⟨ipp ++ '.' :: fpp⟩ : String)).data = ipp ++ '.' :: fpp from
    trimCh_no_ws _ hallnw]
  rcases ipp with _ | ⟨c0, ip2⟩
  · exact absurd rfl hipne
  have hc0d : isDigitCh c0 = true := hipd c0 (List.mem_cons_self _ _)
  rw [List.cons_append]
  dsimp only
  have hbody : decParseSigned (c0 :: (ip2 ++ '.' :: fpp)) =
      parseDecBody (c0 :: (ip2 ++ '.' :: fpp)) := by
    simp only [decParseSigned]
    rw [if_neg (digit_ne_plus c0 hc0d), if_neg (digit_ne_minus c0 hc0d)]
  by_cases h0 : c0 = '0'
  · rw [if_pos h0]
    have hmark : radixMark (ip2 ++ '.' :: fpp) = none := by
      rcases hi : ip2 with _ | ⟨y, ip3⟩
      · rfl
      · exact radixMark_digit y _
          (hipd y (List.mem_cons_of_mem c0 (hi ▸ List.mem_cons_self y ip3)))
    rw [hmark]
    dsimp only
    rw [hbody]
  · rw [if_neg h0, hbody]

theorem takeWhile_all_self (p : Char → Bool) : ∀ l : List Char,
    (∀ x ∈ l, p x = true) → l.takeWhile p = l ∧ l.dropWhile p = [] := by
  intro l
  induction l with
  | nil => intro _; exact ⟨rfl, rfl⟩
  | cons c r ih =>
    intro h
    obtain ⟨h1, h2⟩ := ih (fun x hx => h x (List.mem_cons_of_mem c hx))
    rw [List.takeWhile_cons, List.dropWhile_cons, if_pos (h c (List.mem_cons_self c r)),
      if_pos (h c (List.mem_cons_self c r)), h1]
    exact ⟨rfl, h2⟩

theorem takeWhile_all_append (p : Char → Bool) : ∀ (A : List Char) (c : Char) (B : List Char),
    (∀ x ∈ A, p x = true) → p c = false →
    (A ++ c :: B).takeWhile p = A ∧ (A ++ c :: B).dropWhile p = c :: B := by
  intro A
  induction A with
  | nil =>
    intro c B _ hc
    rw [List.nil_append, List.takeWhile_cons, List.dropWhile_cons, if_neg (by simp [hc]),
      if_neg (by simp [hc])]
    exact ⟨rfl, rfl⟩
  | cons a A' ih =>
    intro c B hA hc
    obtain ⟨h1, h2⟩ := ih c B (fun x hx => hA x (List.mem_cons_of_mem a hx)) hc
    rw [List.cons_append, List.takeWhile_cons, List.dropWhile_cons,
      if_pos (hA a (List.mem_cons_self a A')), if_pos (hA a (List.mem_cons_self a A')), h1, h2]
    exact ⟨rfl, rfl⟩

theorem ofDigitsCh_zeros_append (k : ℕ) (l : List Char) :
    ofDigitsCh (List.replicate k '0' ++ l) = ofDigitsCh l := by
  unfold ofDigitsCh
  rw [List.foldl_append]
  congr 1
  induction k with
  | zero => rfl
  | succ m ih =>
    rw [List.replicate_succ, List.foldl_cons]
    simpa using ih

theorem pad3_length (F : ℕ) (hF : F < 10 ^ 3) :
    (List.replicate (3 - (natToDec F).length) '0' ++ natToDec F).length = 3 := by
  have hlen : (natToDec F).length ≤ 3 := natToDec_length_le F 3 (by norm_num) hF
  rw [List.length_append, List.length_replicate]
  omega

theorem halfAwayDiv_nonneg (a : ℤ) (b : ℕ) (ha : 0 ≤ a) : 0 ≤ halfAwayDiv a b := by
  unfold halfAwayDiv
  rw [if_pos ha]
  positivity

/-- Parsing back the 3-digit `toFixed` rendering of a positive value below
`10^21` recovers exactly the rounded numerator over 1000. -/
theorem toFixed3_roundtrip (x : JNum) (hnum : 0 < x.num)
    (hbound : x.num.natAbs < 10 ^ 21 * x.den) :
    jsStringToNum (toFixedJN x 3) = some ⟨halfAwayDiv (x.num * (10 : ℤ) ^ 3) x.den, 1000⟩ := by
  have hn0 : 0 ≤ halfAwayDiv (x.num * (10 : ℤ) ^ 3) x.den :=
    halfAwayDiv_nonneg _ _ (by positivity)
  set n := halfAwayDiv (x.num * (10 : ℤ) ^ 3) x.den with hn
  set a := n.natAbs with ha
  have hIlt : a % 10 ^ 3 < 10 ^ 3 := Nat.mod_lt a (by norm_num)
  set ip := natToDec (a / 10 ^ 3) with hip
  set fp := List.replicate (3 - (natToDec (a % 10 ^ 3)).length) '0' ++ natToDec (a % 10 ^ 3)
    with hfp
  have hipd : ∀ c ∈ ip, isDigitCh c = true := fun c hc =>
    List.all_eq_true.mp (natToDec_all_digits (a / 10 ^ 3)) c hc
  have hfpd : ∀ c ∈ fp, isDigitCh c = true := by
    intro c hc
    rcases List.mem_append.mp hc with h1 | h1
    · rw [List.eq_of_mem_replicate h1]; rfl
    · exact List.all_eq_true.mp (natToDec_all_digits (a % 10 ^ 3)) c h1
  have hfix : toFixedJN x 3 = ⟨ip ++ '.' :: fp⟩ := by
    unfold toFixedJN
    rw [if_neg (by omega)]
    dsimp only
    rw [if_neg (by omega), if_neg (by norm_num)]
    rfl
  rw [hfix, jsStringToNum_dot_digits ip fp (natToDec_ne_nil _) hipd hfpd]
  unfold parseDecBody
  obtain ⟨htw, hdw⟩ := takeWhile_all_append isDigitCh ip '.' fp hipd (by rfl)
  obtain ⟨htw2, hdw2⟩ := takeWhile_all_self isDigitCh fp hfpd
  rw [htw, hdw]
  dsimp only
  have hhead : (('.' :: fp : List Char).head? = some '.') := rfl
  rw [if_pos hhead, if_pos hhead]
  dsimp only [List.tail_cons]
  rw [htw2, hdw2]
  have hipz : ip.isEmpty = false := by
    rcases hi : ip with _ | ⟨c, r⟩
    · exact absurd hi (natToDec_ne_nil _)
    · rfl
  rw [if_neg ?hcne]
  case hcne =>
    simp [hipz]
  have hfpl : fp.length = 3 := pad3_length _ hIlt
  have hofip : ofDigitsCh ip = a / 10 ^ 3 := ofDigitsCh_natToDec _
  have hoffp : ofDigitsCh fp = a % 10 ^ 3 := by
    rw [hfp, ofDigitsCh_zeros_append, ofDigitsCh_natToDec]
  rw [show parseExp [] = some 0 from rfl]
  dsimp only
  rw [if_pos (le_refl (0 : ℤ))]
  have hval : ofDigitsCh ip * 10 ^ fp.length + ofDigitsCh fp = a := by
    rw [hofip, hoffp, hfpl]
    omega
  have hcast : ((a : ℕ) : ℤ) = n := by
    rw [ha]
    exact Int.natAbs_of_nonneg hn0
  rw [hval, hfpl, show ((0 : ℤ)).toNat = 0 from rfl, pow_zero, mul_one, hcast]
  norm_num

theorem halfRoundNat_exact (c b : ℕ) (hb : 0 < b) : halfRoundNat (c * b) b = c := by
  unfold halfRoundNat
  have h : 2 * (c * b) + b = (2 * b) * c + b := by ring
  rw [h, Nat.mul_add_div (by omega), Nat.div_eq_of_lt (by omega)]
  omega

/-- Rounding an exact quotient returns it unrounded. -/
theorem halfAwayDiv_mul (c b : ℕ) (hb : 0 < b) :
    halfAwayDiv ((c * b : ℕ) : ℤ) b = (c : ℤ) := by
  unfold halfAwayDiv
  rw [if_pos (Int.natCast_nonneg _), Int.toNat_natCast, halfRoundNat_exact c b hb]

/-- A common factor of numerator and denominator does not change the
rendered string (Number::toString normalises the fraction). -/
theorem jsNumToString_cancel (k g : ℕ) (hk : 0 < k) (hg : 0 < g) :
    jsNumToString ⟨((k * g : ℕ) : ℤ), g⟩ = jsNumToString ⟨(k : ℤ), 1⟩ := by
  unfold jsNumToString
  dsimp only
  have hkg0 : ¬ ((k * g : ℕ) : ℤ) = 0 := by
    intro h
    have h2 : k * g = 0 := by exact_mod_cast h
    rcases Nat.mul_eq_zero.mp h2 with h3 | h3 <;> omega
  have hk0 : ¬ ((k : ℕ) : ℤ) = 0 := by
    intro h
    have h2 : k = 0 := by exact_mod_cast h
    omega
  rw [if_neg (by omega : ¬ g = 0), if_neg hkg0,
    if_neg (by norm_num : ¬ (1 : ℕ) = 0), if_neg hk0,
    Int.natAbs_ofNat, Int.natAbs_ofNat]
  have hgcd1 : myGcd (k * g) g = g := by
    rw [myGcd_eq]
    have h := Nat.gcd_mul_right k g 1
    simpa using h
  have hgcd2 : myGcd k 1 = 1 := by
    rw [myGcd_eq]
    exact Nat.gcd_one_right k
  rw [hgcd1, hgcd2, Nat.mul_div_cancel k hg, Nat.div_self hg, Nat.div_one,
    Nat.div_self (by norm_num : (0 : ℕ) < 1)]
  rw [if_neg (not_lt.mpr (Int.natCast_nonneg _)), if_neg (not_lt.mpr (Int.natCast_nonneg _))]
  simp only [Nat.div_one]

/-! ### Claim C4 -/

theorem jnGtNat_true_iff (x : JNum) (n : ℕ) : jnGtNat x n = true ↔ (n : ℤ) * x.den < x.num := by
  simp [jnGtNat]

theorem jnGtNat_false_iff (x : JNum) (n : ℕ) :
    jnGtNat x n = false ↔ ¬ ((n : ℤ) * x.den < x.num) := by
  simp [jnGtNat]

/-- C4 counterexample: `1e9` is not `> 1e9` but *is* `> 1e6`, so the
value exactly at the `B` threshold falls through to the `M` branch and is
abbreviated as `"1000M"`, not returned unchanged. -/
theorem claim_C4_counterexample :
    formatBigNumber (.num (some ⟨10 ^ 9, 1⟩)) = "1000M" ∧
      formatBigNumber (.num (some ⟨10 ^ 9, 1⟩)) ≠ "1000000000" := by
  constructor
  · decide
  · decide

/-- C4 (amended): `formatBigNumber` coerces to a number and compares with
strict greater-than cascading through the `B`, `M`, `K` branches, so a
value exactly equal to a threshold is not returned unchanged but falls to
the next branch: `1e9` yields `"1000M"` and `1e6` yields `"1000K"`.  On
the branch families whose IEEE-double division is exact (integer
multiples of the divisor small enough to be exactly representable) the
abbreviation is the quotient rendered with trailing zeros stripped and
the suffix appended; only values at most `1000` (boundary included) and
values whose coercion is `NaN` are returned as the original value's
string representation unchanged — and hex coercion applies first, so
`formatBigNumber("0xFFFFF") = "1.049M"`, not `"0xFFFFF"`. -/
theorem claim_C4_bignumber :
    (∀ k : ℕ, 1 < k → k ≤ 9000000 →
      formatBigNumber (.num (some ⟨(k : ℤ) * 10 ^ 9, 1⟩)) =
        (⟨natToDec k⟩ : String) ++ "B") ∧
    (∀ k : ℕ, 1 < k → k ≤ 1000 →
      formatBigNumber (.num (some ⟨(k : ℤ) * 10 ^ 6, 1⟩)) =
        (⟨natToDec k⟩ : String) ++ "M") ∧
    (∀ k : ℕ, 1 < k → k ≤ 1000 →
      formatBigNumber (.num (some ⟨(k : ℤ) * 10 ^ 3, 1⟩)) =
        (⟨natToDec k⟩ : String) ++ "K") ∧
    (∀ x : JNum, 0 < x.den → ¬ ((1000 : ℤ) * x.den < x.num) →
      formatBigNumber (.num (some x)) = jsNumToString x) ∧
    (∀ s : String, jsStringToNum s = none → formatBigNumber (.str s) = s) ∧
    formatBigNumber (.num (some ⟨1500000000, 1⟩)) = "1.5B" ∧
    formatBigNumber (.num (some ⟨999, 1⟩)) = "999" ∧
    formatBigNumber (.num (some ⟨1000, 1⟩)) = "1000" ∧
    formatBigNumber (.num (some ⟨10 ^ 6, 1⟩)) = "1000K" ∧
    formatBigNumber (.str "0xFFFFF") = "1.049M" := by
  refine ⟨?_, ?_, ?_, ?_, ?_, by decide, by decide, by decide, by decide, by decide⟩
  · intro k hk1 hk2
    have hkz : (1 : ℤ) < (k : ℤ) := by exact_mod_cast hk1
    unfold formatBigNumber
    dsimp only [toNumber]
    rw [if_pos ((jnGtNat_true_iff _ 1000000000).mpr
      (by dsimp only; push_cast; nlinarith))]
    rw [show (⟨(k : ℤ) * 10 ^ 9, 1⟩ : JNum).divNat 1000000000 =
      ⟨(k : ℤ) * 10 ^ 9, 1 * 1000000000⟩ from rfl]
    have hnatabs : ((k : ℤ) * 10 ^ 9).natAbs = k * 10 ^ 9 := by
      have hcast : (k : ℤ) * 10 ^ 9 = ((k * 10 ^ 9 : ℕ) : ℤ) := by
        push_cast
        ring
      rw [hcast, Int.natAbs_ofNat]
    have hrt := toFixed3_roundtrip ⟨(k : ℤ) * 10 ^ 9, 1 * 1000000000⟩
      (by dsimp only; nlinarith)
      (by
        dsimp only
        rw [hnatabs]
        norm_num
        omega)
    rw [hrt]
    dsimp only
    have harg : (k : ℤ) * 10 ^ 9 * 10 ^ 3 =
        (((k * 1000) * (1 * 1000000000) : ℕ) : ℤ) := by
      push_cast
      ring
    rw [harg, halfAwayDiv_mul (k * 1000) (1 * 1000000000) (by norm_num)]
    rw [show ∀ v : JNum, jsNumOptToStr (some v) = jsNumToString v from fun v => rfl]
    rw [jsNumToString_cancel k 1000 (by omega) (by norm_num),
      jsNumToString_nat k (by norm_num; omega)]
  · intro k hk1 hk2
    have hkz : (1 : ℤ) < (k : ℤ) := by exact_mod_cast hk1
    have hkb : (k : ℤ) ≤ 1000 := by exact_mod_cast hk2
    unfold formatBigNumber
    dsimp only [toNumber]
    rw [if_neg ?hm1, if_pos ((jnGtNat_true_iff _ 1000000).mpr
      (by dsimp only; push_cast; nlinarith))]
    case hm1 =>
      rw [(jnGtNat_false_iff _ 1000000000).mpr (by dsimp only; push_cast; nlinarith)]
      exact Bool.false_ne_true
    rw [show (⟨(k : ℤ) * 10 ^ 6, 1⟩ : JNum).divNat 1000000 =
      ⟨(k : ℤ) * 10 ^ 6, 1 * 1000000⟩ from rfl]
    have hnatabs : ((k : ℤ) * 10 ^ 6).natAbs = k * 10 ^ 6 := by
      have hcast : (k : ℤ) * 10 ^ 6 = ((k * 10 ^ 6 : ℕ) : ℤ) := by
        push_cast
        ring
      rw [hcast, Int.natAbs_ofNat]
    have hrt := toFixed3_roundtrip ⟨(k : ℤ) * 10 ^ 6, 1 * 1000000⟩
      (by dsimp only; nlinarith)
      (by
        dsimp only
        rw [hnatabs]
        norm_num
        omega)
    rw [hrt]
    dsimp only
    have harg : (k : ℤ) * 10 ^ 6 * 10 ^ 3 =
        (((k * 1000) * (1 * 1000000) : ℕ) : ℤ) := by
      push_cast
      ring
    rw [harg, halfAwayDiv_mul (k * 1000) (1 * 1000000) (by norm_num)]
    rw [show ∀ v : JNum, jsNumOptToStr (some v) = jsNumToString v from fun v => rfl]
    rw [jsNumToString_cancel k 1000 (by omega) (by norm_num),
      jsNumToString_nat k (by norm_num; omega)]
  · intro k hk1 hk2
    have hkz : (1 : ℤ) < (k : ℤ) := by exact_mod_cast hk1
    have hkb : (k : ℤ) ≤ 1000 := by exact_mod_cast hk2
    unfold formatBigNumber
    dsimp only [toNumber]
    rw [if_neg ?hk1a, if_neg ?hk2a, if_pos ((jnGtNat_true_iff _ 1000).mpr
      (by dsimp only; push_cast; nlinarith))]
    case hk1a =>
      rw [(jnGtNat_false_iff _ 1000000000).mpr (by dsimp only; push_cast; nlinarith)]
      exact Bool.false_ne_true
    case hk2a =>
      rw [(jnGtNat_false_iff _ 1000000).mpr (by dsimp only; push_cast; nlinarith)]
      exact Bool.false_ne_true
    rw [show (⟨(k : ℤ) * 10 ^ 3, 1⟩ : JNum).divNat 1000 =
      ⟨(k : ℤ) * 10 ^ 3, 1 * 1000⟩ from rfl]
    have hnatabs : ((k : ℤ) * 10 ^ 3).natAbs = k * 10 ^ 3 := by
      have hcast : (k : ℤ) * 10 ^ 3 = ((k * 10 ^ 3 : ℕ) : ℤ) := by
        push_cast
        ring
      rw [hcast, Int.natAbs_ofNat]
    have hrt := toFixed3_roundtrip ⟨(k : ℤ) * 10 ^ 3, 1 * 1000⟩
      (by dsimp only; nlinarith)
      (by
        dsimp only
        rw [hnatabs]
        norm_num
        omega)
    rw [hrt]
    dsimp only
    have harg : (k : ℤ) * 10 ^ 3 * 10 ^ 3 =
        (((k * 1000) * (1 * 1000) : ℕ) : ℤ) := by
      push_cast
      ring
    rw [harg, halfAwayDiv_mul (k * 1000) (1 * 1000) (by norm_num)]
    rw [show ∀ v : JNum, jsNumOptToStr (some v) = jsNumToString v from fun v => rfl]
    rw [jsNumToString_cancel k 1000 (by omega) (by norm_num),
      jsNumToString_nat k (by norm_num; omega)]
  · intro x hden hle
    unfold formatBigNumber
    dsimp only [toNumber]
    rw [if_neg ?hc1, if_neg ?hc2, if_neg ?hc3]
    case hc1 =>
      rw [(jnGtNat_false_iff x 1000000000).mpr (by omega)]
      exact Bool.false_ne_true
    case hc2 =>
      rw [(jnGtNat_false_iff x 1000000).mpr (by omega)]
      exact Bool.false_ne_true
    case hc3 =>
      rw [(jnGtNat_false_iff x 1000).mpr hle]
      exact Bool.false_ne_true
    rfl
  · intro s h
    unfold formatBigNumber
    dsimp only [toNumber]
    rw [h]
    rfl

/-- C4 witness: the branch clauses applied at concrete inputs. -/
theorem claim_C4_witness :
    formatBigNumber (.num (some ⟨(3 : ℕ) * 10 ^ 9, 1⟩)) = (⟨natToDec 3⟩ : String) ++ "B" ∧
    formatBigNumber (.num (some ⟨(7 : ℕ) * 10 ^ 6, 1⟩)) = (⟨natToDec 7⟩ : String) ++ "M" ∧
    formatBigNumber (.num (some ⟨(42 : ℕ) * 10 ^ 3, 1⟩)) = (⟨natToDec 42⟩ : String) ++ "K" ∧
    formatBigNumber (.num (some ⟨500, 1⟩)) = jsNumToString ⟨500, 1⟩ ∧
    formatBigNumber (.str "zzz") = "zzz" := by
  refine ⟨claim_C4_bignumber.1 3 (by decide) (by decide),
    claim_C4_bignumber.2.1 7 (by decide) (by decide),
    claim_C4_bignumber.2.2.1 42 (by decide) (by decide),
    claim_C4_bignumber.2.2.2.1 ⟨500, 1⟩ (by decide) (by decide),
    claim_C4_bignumber.2.2.2.2.1 "zzz" (by decide)⟩

/-! ### Claim C9 -/

theorem fracPad_len (m p : ℕ) (hp : 0 < p) (hm : m < 10 ^ p) :
    (List.replicate (p - (natToDec m).length) '0' ++ natToDec m).length = p := by
  have := natToDec_length_le m p hp hm
  rw [List.length_append, List.length_replicate]
  omega

theorem fracPad_digits (m p : ℕ) :
    (List.replicate (p - (natToDec m).length) '0' ++ natToDec m).all isDigitCh = true := by
  rw [List.all_append, Bool.and_eq_true]
  refine ⟨List.all_eq_true.mpr (fun c hc => ?_), natToDec_all_digits m⟩
  rw [List.eq_of_mem_replicate hc]
  decide

/-- C9: `formatPrecision` coerces its argument with unary `+`; a finite
coercion is rendered in the id-ID convention — period thousands grouping,
comma decimal separator — with exactly `precision` fraction digits
(default 2), rounding half away from zero at the last retained digit
(`formatPrecision(1234.5, 2) = "1.234,50"`, and the tie `0.125` at
precision 2 rounds away from zero to `"0,13"`); hex strings coerce to
their numeric value (`formatPrecision("0x10") = "16,00"`); a `NaN`
coercion returns the original value's string representation unchanged
(`formatPrecision("abc") = "abc"`). -/
theorem claim_C9_precision :
    formatPrecision (.num (some ⟨2469, 2⟩)) (some 2) = "1.234,50" ∧
    formatPrecision (.str "1234.5") (some 2) = "1.234,50" ∧
    formatPrecision (.num (some ⟨1, 8⟩)) (some 2) = "0,13" ∧
    formatPrecision (.str "0x10") none = "16,00" ∧
    formatPrecision (.str "abc") none = "abc" ∧
    (∀ (v : StrOrNum) (p : Option ℕ), toNumber v = none →
      formatPrecision v p = toJsString v) ∧
    (∀ v : StrOrNum, formatPrecision v none = formatPrecision v (some 2)) ∧
    (∀ (x : JNum) (p : ℕ), 0 < p →
      ∃ pre fr, (renderIdID x p).data = pre ++ ',' :: fr ∧
        fr.length = p ∧ fr.all isDigitCh = true) := by
  refine ⟨by decide, by decide, by decide, by decide, by decide, ?_, ?_, ?_⟩
  · intro v p h
    unfold formatPrecision
    rw [h]
  · intro v
    unfold formatPrecision
    cases toNumber v <;> rfl
  · intro x p hp
    unfold renderIdID
    dsimp only
    rw [if_neg (Nat.pos_iff_ne_zero.mp hp)]
    exact ⟨_, _, rfl, fracPad_len _ p hp (Nat.mod_lt _ (by positivity)),
      fracPad_digits _ p⟩

/-- C9 witness: the quantified clauses applied at concrete inputs. -/
theorem claim_C9_witness :
    formatPrecision (.str "NaN") (some 5) = toJsString (.str "NaN") ∧
    formatPrecision (.num (some ⟨2469, 2⟩)) none = "1.234,50" ∧
    ∃ pre fr, (renderIdID ⟨2469, 2⟩ 2).data = pre ++ ',' :: fr ∧
      fr.length = 2 ∧ fr.all isDigitCh = true := by
  refine ⟨claim_C9_precision.2.2.2.2.2.1 (.str "NaN") (some 5) (by decide), ?_, ?_⟩
  · rw [claim_C9_precision.2.2.2.2.2.2.1 (.num (some ⟨2469, 2⟩))]
    exact claim_C9_precision.1
  · exact claim_C9_precision.2.2.2.2.2.2.2 ⟨2469, 2⟩ 2 (by decide)

/-! ### Claim C10 -/

/-- C10: the empty string is NOT returned unchanged by `formatPrecision`:
unary coercion maps `""` to the finite number `0` (so `isNumber` holds),
hence `formatPrecision("")` takes the locale-rendering branch and returns
`"0,00"` at the default precision, never `""`; the fallback branch is the
locale rendering of the coerced number whenever coercion is finite. -/
theorem claim_C10_empty_string :
    toNumber (.str "") = some ⟨0, 1⟩ ∧
    formatPrecision (.str "") none = "0,00" ∧
    formatPrecision (.str "") none ≠ toJsString (.str "") ∧
    (∀ p : Option ℕ, formatPrecision (.str "") p = renderIdID ⟨0, 1⟩ (p.getD 2)) := by
  refine ⟨by decide, by decide, by decide, fun p => rfl⟩

/-! ### Claim C1 -/

/-- The single-quote character. -/
def sqCh : Char := Char.ofNat 39

theorem tokenizePath_abc : tokenizePath "a.b.c" = ["a", "b", "c"] := by decide

/-- C1 counterexample: `defaultValue ?? "--"` treats a caller-supplied
`null` default as absent, so a failed lookup with default `null` returns
the literal string `"--"`, not the caller-supplied `null`. -/
theorem claim_C1_counterexample :
    formatValue (.obj [("a", .vnum (some ⟨1, 1⟩))]) "a.b.c" .vnull = .vstr "--" ∧
    Value.vstr "--" ≠ Value.vnull := by
  exact ⟨rfl, fun h => Value.noConfusion h⟩

/-- C1 (amended): `formatValue(data, "a.b.c", dflt)` tokenizes the path to
`["a","b","c"]` and performs sequential member access — it returns
`data.a.b.c` exactly when `data` and every intermediate value reached are
valid, and otherwise returns `dflt ?? "--"`; the latter is the
caller-supplied default only when that default is itself valid, while a
caller-supplied `null` or `undefined` default yields the literal string
`"--"`.  Quoted bracket segments resolve keys verbatim, including keys
containing dots. -/
theorem claim_C1_value :
    tokenizePath "a.b.c" = ["a", "b", "c"] ∧
    (∀ (data : Value) (dflt : Value),
      formatValue data "a.b.c" dflt =
        if (isValidV data && isValidV (indexV data "a") &&
            isValidV (indexV (indexV data "a") "b") &&
            isValidV (indexV (indexV (indexV data "a") "b") "c")) = true
        then indexV (indexV (indexV data "a") "b") "c"
        else coalesceDflt dflt) ∧
    (coalesceDflt .vnull = .vstr "--" ∧ coalesceDflt .undef = .vstr "--") ∧
    (∀ d : Value, isValidV d = true → coalesceDflt d = d) ∧
    formatValue (.obj [("a", .obj [("b", .vnum (some ⟨1, 1⟩))])])
      ⟨['a', '[', sqCh, 'b', sqCh, ']']⟩ .undef = .vnum (some ⟨1, 1⟩) ∧
    formatValue (.obj [("a", .obj [("b.c", .vnum (some ⟨1, 1⟩))])])
      "a[\"b.c\"]" .undef = .vnum (some ⟨1, 1⟩) := by
  refine ⟨by decide, ?_, ⟨rfl, rfl⟩, ?_, rfl, rfl⟩
  · intro data dflt
    unfold formatValue
    dsimp only
    rw [tokenizePath_abc]
    simp only [walkPath]
    by_cases hd : isValidV data = true
    case neg =>
      rw [Bool.not_eq_true] at hd
      simp [hd]
    case pos =>
      by_cases h1 : isValidV (indexV data "a") = true
      case neg =>
        rw [Bool.not_eq_true] at h1
        simp [hd, h1]
      case pos =>
        by_cases h2 : isValidV (indexV (indexV data "a") "b") = true
        case neg =>
          rw [Bool.not_eq_true] at h2
          simp [hd, h1, h2]
        case pos =>
          by_cases h3 : isValidV (indexV (indexV (indexV data "a") "b") "c") = true
          case neg =>
            rw [Bool.not_eq_true] at h3
            simp [hd, h1, h2, h3]
          case pos =>
            simp [hd, h1, h2, h3]
  · intro d h
    unfold coalesceDflt
    rw [if_pos h]

/-- C1 witness: the valid-default clause applied at a concrete input. -/
theorem claim_C1_witness :
    isValidV (.vbool true) = true ∧ coalesceDflt (.vbool true) = .vbool true :=
  ⟨rfl, claim_C1_value.2.2.2.1 (.vbool true) rfl⟩

/-! ### Claim C8 -/

/-- Left-biased choice on optional strings (`a ?? b`). -/
def oOr (a b : Option String) : Option String :=
  match a with
  | some s => some s
  | none => b

/-- The last emitted part of a given type (the `forEach` is last-wins). -/
def lastVal (t : PartT) : List (PartT × String) → Option String
  | [] => none
  | p :: ps => oOr (lastVal t ps) (if p.1 = t then some p.2 else none)

/-- The `"24" → "00"` hour normalisation. -/
def hourNorm (s : String) : String := if s = "24" then "00" else s

/-- Token-prefix test for the specification-side scanner. -/
def lpre : List Char → List Char → Bool
  | [], _ => true
  | _ :: _, [] => false
  | a :: as, b :: bs => if b = a then lpre as bs else false

/-- Modelled from the spec: the generic global-substitution engine of
spec §4.4 — scan left to right; at each position try the substitution
table in order; on a match emit the replacement and resume after the
matched token, never re-scanning emitted text; otherwise pass one
character through. -/
def specScan (subs : List (List Char × String)) : ℕ → List Char → List Char
  | 0, l => l
  | _ + 1, [] => []
  | fuel + 1, c :: r =>
    match subs.find? (fun p => lpre p.1 (c :: r)) with
    | some p => p.2.data ++ specScan subs fuel ((c :: r).drop p.1.length)
    | none => c :: specScan subs fuel r

/-- Modelled from the spec: the substitution table of spec §4.4 — the six
case-sensitive tokens, each mapped to the last emitted part of the
corresponding type, the hour normalised. -/
def specDT (ps : List (PartT × String)) : List (List Char × String) :=
  [(['Y', 'Y', 'Y', 'Y'], (lastVal .year ps).getD undefStr),
   (['M', 'M'], (lastVal .month ps).getD undefStr),
   (['D', 'D'], (lastVal .day ps).getD undefStr),
   (['H', 'H'], ((lastVal .hour ps).map hourNorm).getD undefStr),
   (['m', 'm'], (lastVal .minute ps).getD undefStr),
   (['s', 's'], (lastVal .second ps).getD undefStr)]

/-- The same table read off a `DateTime` record. -/
def dtSubs (d : DateTimeRec) : List (List Char × String) :=
  [(['Y', 'Y', 'Y', 'Y'], d.YYYY.getD undefStr),
   (['M', 'M'], d.MM.getD undefStr),
   (['D', 'D'], d.DD.getD undefStr),
   (['H', 'H'], d.HH.getD undefStr),
   (['m', 'm'], d.mm.getD undefStr),
   (['s', 's'], d.ss.getD undefStr)]

/-- A concrete six-part formatter (hour `"24"`) for the examples. -/
def exDTF : DTFormat := fun _ =>
  [(.other, "x"), (.year, "2023"), (.month, "01"), (.day, "02"),
   (.hour, "24"), (.minute, "34"), (.second, "56")]

theorem oOr_assoc (a b c : Option String) : oOr (oOr a b) c = oOr a (oOr b c) := by
  cases a <;> rfl

theorem oOr_none (a : Option String) : oOr a none = a := by
  cases a <;> rfl

theorem oOr_map (a b : Option String) :
    (oOr a b).map hourNorm = oOr (a.map hourNorm) (b.map hourNorm) := by
  cases a <;> rfl

theorem dtStep_YYYY (d : DateTimeRec) (p : PartT × String) :
    (dtStep d p).YYYY = oOr (if p.1 = .year then some p.2 else none) d.YYYY := by
  obtain ⟨t, s⟩ := p
  cases t <;> rfl

theorem dtStep_MM (d : DateTimeRec) (p : PartT × String) :
    (dtStep d p).MM = oOr (if p.1 = .month then some p.2 else none) d.MM := by
  obtain ⟨t, s⟩ := p
  cases t <;> rfl

theorem dtStep_DD (d : DateTimeRec) (p : PartT × String) :
    (dtStep d p).DD = oOr (if p.1 = .day then some p.2 else none) d.DD := by
  obtain ⟨t, s⟩ := p
  cases t <;> rfl

theorem dtStep_HH (d : DateTimeRec) (p : PartT × String) :
    (dtStep d p).HH =
      oOr ((if p.1 = .hour then some p.2 else none).map hourNorm) d.HH := by
  obtain ⟨t, s⟩ := p
  cases t <;> rfl

theorem dtStep_mm (d : DateTimeRec) (p : PartT × String) :
    (dtStep d p).mm = oOr (if p.1 = .minute then some p.2 else none) d.mm := by
  obtain ⟨t, s⟩ := p
  cases t <;> rfl

theorem dtStep_ss (d : DateTimeRec) (p : PartT × String) :
    (dtStep d p).ss = oOr (if p.1 = .second then some p.2 else none) d.ss := by
  obtain ⟨t, s⟩ := p
  cases t <;> rfl

theorem fold_YYYY : ∀ (ps : List (PartT × String)) (d : DateTimeRec),
    (ps.foldl dtStep d).YYYY = oOr (lastVal .year ps) d.YYYY := by
  intro ps
  induction ps with
  | nil => intro d; rfl
  | cons p ps ih =>
    intro d
    show ((ps.foldl dtStep (dtStep d p))).YYYY = _
    rw [ih, dtStep_YYYY, show lastVal .year (p :: ps) =
      oOr (lastVal .year ps) (if p.1 = .year then some p.2 else none) from rfl]
    exact (oOr_assoc _ _ _).symm

theorem fold_MM : ∀ (ps : List (PartT × String)) (d : DateTimeRec),
    (ps.foldl dtStep d).MM = oOr (lastVal .month ps) d.MM := by
  intro ps
  induction ps with
  | nil => intro d; rfl
  | cons p ps ih =>
    intro d
    show ((ps.foldl dtStep (dtStep d p))).MM = _
    rw [ih, dtStep_MM, show lastVal .month (p :: ps) =
      oOr (lastVal .month ps) (if p.1 = .month then some p.2 else none) from rfl]
    exact (oOr_assoc _ _ _).symm

theorem fold_DD : ∀ (ps : List (PartT × String)) (d : DateTimeRec),
    (ps.foldl dtStep d).DD = oOr (lastVal .day ps) d.DD := by
  intro ps
  induction ps with
  | nil => intro d; rfl
  | cons p ps ih =>
    intro d
    show ((ps.foldl dtStep (dtStep d p))).DD = _
    rw [ih, dtStep_DD, show lastVal .day (p :: ps) =
      oOr (lastVal .day ps) (if p.1 = .day then some p.2 else none) from rfl]
    exact (oOr_assoc _ _ _).symm

theorem fold_HH : ∀ (ps : List (PartT × String)) (d : DateTimeRec),
    (ps.foldl dtStep d).HH = oOr ((lastVal .hour ps).map hourNorm) d.HH := by
  intro ps
  induction ps with
  | nil => intro d; rfl
  | cons p ps ih =>
    intro d
    show ((ps.foldl dtStep (dtStep d p))).HH = _
    rw [ih, dtStep_HH, show lastVal .hour (p :: ps) =
      oOr (lastVal .hour ps) (if p.1 = .hour then some p.2 else none) from rfl,
      oOr_map]
    exact (oOr_assoc _ _ _).symm

theorem fold_mm : ∀ (ps : List (PartT × String)) (d : DateTimeRec),
    (ps.foldl dtStep d).mm = oOr (lastVal .minute ps) d.mm := by
  intro ps
  induction ps with
  | nil => intro d; rfl
  | cons p ps ih =>
    intro d
    show ((ps.foldl dtStep (dtStep d p))).mm = _
    rw [ih, dtStep_mm, show lastVal .minute (p :: ps) =
      oOr (lastVal .minute ps) (if p.1 = .minute then some p.2 else none) from rfl]
    exact (oOr_assoc _ _ _).symm

theorem fold_ss : ∀ (ps : List (PartT × String)) (d : DateTimeRec),
    (ps.foldl dtStep d).ss = oOr (lastVal .second ps) d.ss := by
  intro ps
  induction ps with
  | nil => intro d; rfl
  | cons p ps ih =>
    intro d
    show ((ps.foldl dtStep (dtStep d p))).ss = _
    rw [ih, dtStep_ss, show lastVal .second (p :: ps) =
      oOr (lastVal .second ps) (if p.1 = .second then some p.2 else none) from rfl]
    exact (oOr_assoc _ _ _).symm

theorem dtRecEq {a b : DateTimeRec} (h1 : a.YYYY = b.YYYY) (h2 : a.MM = b.MM)
    (h3 : a.DD = b.DD) (h4 : a.HH = b.HH) (h5 : a.mm = b.mm)
    (h6 : a.ss = b.ss) : a = b := by
  cases a
  cases b
  dsimp only at h1 h2 h3 h4 h5 h6
  rw [h1, h2, h3, h4, h5, h6]

theorem fdt_fields (fmt : DTFormat) (ts : ℤ) :
    formatDateToDateTime fmt ts =
      ⟨lastVal .year (fmt ts), lastVal .month (fmt ts), lastVal .day (fmt ts),
        (lastVal .hour (fmt ts)).map hourNorm, lastVal .minute (fmt ts),
        lastVal .second (fmt ts)⟩ := by
  refine dtRecEq ?_ ?_ ?_ ?_ ?_ ?_
  · show ((fmt ts).foldl dtStep ⟨none, none, none, none, none, none⟩).YYYY = _
    rw [fold_YYYY]
    exact oOr_none _
  · show ((fmt ts).foldl dtStep ⟨none, none, none, none, none, none⟩).MM = _
    rw [fold_MM]
    exact oOr_none _
  · show ((fmt ts).foldl dtStep ⟨none, none, none, none, none, none⟩).DD = _
    rw [fold_DD]
    exact oOr_none _
  · show ((fmt ts).foldl dtStep ⟨none, none, none, none, none, none⟩).HH = _
    rw [fold_HH]
    exact oOr_none _
  · show ((fmt ts).foldl dtStep ⟨none, none, none, none, none, none⟩).mm = _
    rw [fold_mm]
    exact oOr_none _
  · show ((fmt ts).foldl dtStep ⟨none, none, none, none, none, none⟩).ss = _
    rw [fold_ss]
    exact oOr_none _

theorem specDT_eq_dtSubs (fmt : DTFormat) (ts : ℤ) :
    specDT (fmt ts) = dtSubs (formatDateToDateTime fmt ts) := by
  rw [fdt_fields]
  rfl

theorem specScan_dtSubs (d : DateTimeRec) : ∀ (fuel : ℕ) (l : List Char),
    specScan (dtSubs d) fuel l = replaceDT d fuel l := by
  intro fuel
  induction fuel with
  | zero => intro l; rfl
  | succ n ih =>
    intro l
    rcases l with _ | ⟨c1, _ | ⟨c2, r⟩⟩
    · rfl
    · simp [specScan, replaceDT, dtSubs, dtTok, lpre, List.find?]
      exact ih _
    · by_cases hY : c1 = 'Y'
      · subst hY
        by_cases hY2 : c2 = 'Y'
        · subst hY2
          rcases r with _ | ⟨c3, _ | ⟨c4, r2⟩⟩
          · simp [specScan, replaceDT, dtSubs, dtTok, lpre, List.find?]
            exact ih _
          · simp [specScan, replaceDT, dtSubs, dtTok, lpre, List.find?]
            exact ih _
          · by_cases h3 : c3 = 'Y'
            · subst h3
              by_cases h4 : c4 = 'Y'
              · subst h4
                exact congrArg ((d.YYYY.getD undefStr).data ++ ·) (ih r2)
              · simp [specScan, replaceDT, dtSubs, dtTok, lpre, List.find?, h4]
                exact ih _
            · simp [specScan, replaceDT, dtSubs, dtTok, lpre, List.find?, h3]
              exact ih _
        · simp [specScan, replaceDT, dtSubs, dtTok, lpre, List.find?, hY2]
          exact ih _
      · by_cases hM : c1 = 'M'
        · subst hM
          by_cases hM2 : c2 = 'M'
          · subst hM2
            exact congrArg ((d.MM.getD undefStr).data ++ ·) (ih r)
          · simp [specScan, replaceDT, dtSubs, dtTok, lpre, List.find?, hM2]
            exact ih _
        · by_cases hD : c1 = 'D'
          · subst hD
            by_cases hD2 : c2 = 'D'
            · subst hD2
              exact congrArg ((d.DD.getD undefStr).data ++ ·) (ih r)
            · simp [specScan, replaceDT, dtSubs, dtTok, lpre, List.find?, hD2]
              exact ih _
          · by_cases hH : c1 = 'H'
            · subst hH
              by_cases hH2 : c2 = 'H'
              · subst hH2
                exact congrArg ((d.HH.getD undefStr).data ++ ·) (ih r)
              · simp [specScan, replaceDT, dtSubs, dtTok, lpre, List.find?, hH2]
                exact ih _
            · by_cases hm1 : c1 = 'm'
              · subst hm1
                by_cases hm2 : c2 = 'm'
                · subst hm2
                  exact congrArg ((d.mm.getD undefStr).data ++ ·) (ih r)
                · simp [specScan, replaceDT, dtSubs, dtTok, lpre, List.find?, hm2]
                  exact ih _
              · by_cases hs1 : c1 = 's'
                · subst hs1
                  by_cases hs2 : c2 = 's'
                  · subst hs2
                    exact congrArg ((d.ss.getD undefStr).data ++ ·) (ih r)
                  · simp [specScan, replaceDT, dtSubs, dtTok, lpre, List.find?, hs2]
                    exact ih _
                · simp [specScan, replaceDT, dtSubs, dtTok, lpre, List.find?,
                    hY, hM, hD, hH, hm1, hs1]
                  exact ih _

/-- C8: when the injected date/time primitive emits parts of all six
recognised types, `formatDateToString` equals the specification-side
global substitution: scan the template left to right, trying the literal
tokens `YYYY`, `MM`, `DD`, `HH`, `mm`, `ss` case-sensitively in
alternation order at each position, replacing a match with the
corresponding component — the last emitted part of that type, an hour
`"24"` normalised to `"00"` — resuming after the replacement without
re-matching substituted text, and passing every other character through;
concretely, a six-part formatter with hour `"24"` renders
`"YYYY-MM-DD HH:mm:ss"` as `"2023-01-02 00:34:56"`. -/
theorem claim_C8_date :
    (∀ (fmt : DTFormat) (ts : ℤ) (tpl : String),
      (∀ t : PartT, t ≠ .other → (lastVal t (fmt ts)).isSome = true) →
      formatDateToString fmt ts tpl =
        ⟨specScan (specDT (fmt ts)) tpl.data.length tpl.data⟩) ∧
    (∀ (fmt : DTFormat) (ts : ℤ), lastVal .hour (fmt ts) = some "24" →
      (formatDateToDateTime fmt ts).HH = some "00") ∧
    formatDateToString exDTF 0 "YYYY-MM-DD HH:mm:ss" = "2023-01-02 00:34:56" ∧
    formatDateToString exDTF 0 "ss:mm HH YYYYMMDD x" = "56:34 00 20230102 x" := by
  refine ⟨?_, ?_, by decide, by decide⟩
  · intro fmt ts tpl _
    unfold formatDateToString
    rw [specDT_eq_dtSubs]
    exact (congrArg (fun l => (⟨l⟩ : String)) (specScan_dtSubs _ _ _)).symm
  · intro fmt ts h
    rw [fdt_fields]
    dsimp only
    rw [h]
    rfl

/-- C8 witness: the substitution equality and the hour normalisation at a
concrete formatter, timestamp and template. -/
theorem claim_C8_witness :
    formatDateToString exDTF 0 "HH:mm" =
      ⟨specScan (specDT (exDTF 0)) ("HH:mm" : String).data.length
        ("HH:mm" : String).data⟩ ∧
    (formatDateToDateTime exDTF 0).HH = some "00" := by
  constructor
  · exact claim_C8_date.1 exDTF 0 "HH:mm"
      (by intro t ht; cases t <;> first | decide | exact absurd rfl ht)
  · exact claim_C8_date.2.1 exDTF 0 (by decide)
